import Mathlib

/-!
Verification of the ctjson type-directed JSON marshalling core.

This file gives a shallow embedding of the library under
src/include/ctjson and proves properties of it.  The external
collaborators (the rapidjson lexer and pretty printer) are abstracted at
the lexical-event level: a tokenizer is a finite list of tokens followed
by either completion or a malformed-input report, and the writer is
modelled by the token it would emit.  Machine integers are embedded as
Int together with an explicit type descriptor (signedness and width);
the std-style exact mixed-signedness comparisons of
detail/TypeUtils.hpp are translated with the unsigned casts written as
explicit reduction modulo two to the width.
-/

set_option autoImplicit false

namespace ctjson

/-! ### Integer type descriptors and detail/TypeUtils.hpp -/

/-- Descriptor of a C++ integer type: signedness and bit width. -/
structure IntTy where
  sgn : Bool
  bits : Nat
deriving DecidableEq

/-- Smallest representable value of the integer type. -/
def IntTy.minVal (t : IntTy) : Int :=
  if t.sgn then -(2 ^ (t.bits - 1)) else 0

/-- Largest representable value of the integer type. -/
def IntTy.maxVal (t : IntTy) : Int :=
  if t.sgn then 2 ^ (t.bits - 1) - 1 else 2 ^ t.bits - 1

def i8ty : IntTy := ⟨true, 8⟩
def i16ty : IntTy := ⟨true, 16⟩
def i32ty : IntTy := ⟨true, 32⟩
def i64ty : IntTy := ⟨true, 64⟩
def u8ty : IntTy := ⟨false, 8⟩
def u16ty : IntTy := ⟨false, 16⟩
def u32ty : IntTy := ⟨false, 32⟩
def u64ty : IntTy := ⟨false, 64⟩

/-- Value of the cast to the unsigned type of the given width
(std::make_unsigned conversion). -/
def toUnsigned (bits : Nat) (v : Int) : Int := v % (2 : Int) ^ bits

/-- detail::cmp_equal: exact equality across signedness.  The first
type/value pair is the left operand, the second the right one. -/
def cmp_equal (T U : IntTy) (t u : Int) : Bool :=
  if T.sgn = U.sgn then t = u
  else if T.sgn then (if t < 0 then false else toUnsigned T.bits t = u)
  else (if u < 0 then false else t = toUnsigned U.bits u)

/-- detail::cmp_less: exact less-than across signedness. -/
def cmp_less (T U : IntTy) (t u : Int) : Bool :=
  if T.sgn = U.sgn then t < u
  else if T.sgn then (if t < 0 then true else toUnsigned T.bits t < u)
  else (if u < 0 then false else t < toUnsigned U.bits u)

/-- detail::cmp_greater. -/
def cmp_greater (T U : IntTy) (t u : Int) : Bool := cmp_less U T u t

/-- detail::cmp_less_equal. -/
def cmp_less_equal (T U : IntTy) (t u : Int) : Bool := !cmp_greater T U t u

/-- detail::cmp_greater_equal. -/
def cmp_greater_equal (T U : IntTy) (t u : Int) : Bool := !cmp_less T U t u

/-- detail::in_range: is the value t of type T representable in type R. -/
def in_range (R T : IntTy) (t : Int) : Bool :=
  cmp_greater_equal T R t R.minVal && cmp_less_equal T R t R.maxVal

/-! ### Tokens (detail/Token.hpp) -/

/-- One lexical event.  The four C++ integer token kinds Int, Uint,
Int64 and Uint64 are represented uniformly as num with the token type
descriptor; the EndObject/EndArray member counts of rapidjson are kept
as payloads (the core never reads them). -/
inductive Token where
  | null
  | bool (b : Bool)
  | num (tt : IntTy) (v : Int)
  | double (d : Rat)
  | rawNumber (s : String)
  | str (s : String)
  | startObject
  | key (k : String)
  | endObject (n : Nat)
  | startArray
  | endArray (n : Nat)
deriving DecidableEq

/-- Token::name. -/
def Token.name : Token → String
  | .null => "null"
  | .bool _ => "bool"
  | .num tt _ =>
      if tt.bits = 64 then (if tt.sgn then "int64" else "uint64")
      else (if tt.sgn then "int" else "uint")
  | .double _ => "double"
  | .rawNumber _ => "number"
  | .str _ => "string"
  | .startObject => "start object"
  | .key _ => "key"
  | .endObject _ => "end object"
  | .startArray => "start array"
  | .endArray _ => "end array"

/-! ### Path tracking (detail/Path.hpp)

The C++ Path stores components in a vector with the innermost component
at the back; here the list head is the innermost component. -/

/-- One component of the structural path. -/
inductive PathComp where
  | obj (key : Option String)
  | arr (index : Int)
deriving DecidableEq

/-- Path::advance_array_if_needed. -/
def advanceArrayIfNeeded : List PathComp → List PathComp
  | .arr i :: rest => .arr (i + 1) :: rest
  | p => p

/-- Path::start_object. -/
def pathStartObject (p : List PathComp) : List PathComp :=
  .obj none :: advanceArrayIfNeeded p

/-- Path::key.  The C++ precondition (innermost component is an object)
is defensive; on violation the model leaves the path unchanged. -/
def pathKey (k : String) : List PathComp → List PathComp
  | .obj _ :: rest => .obj (some k) :: rest
  | p => p

/-- Path::end_object. -/
def pathEndObject (p : List PathComp) : List PathComp := p.tail

/-- Path::start_array. -/
def pathStartArray (p : List PathComp) : List PathComp :=
  .arr (-1) :: advanceArrayIfNeeded p

/-- Path::value. -/
def pathValue (p : List PathComp) : List PathComp := advanceArrayIfNeeded p

/-- Path::end_array. -/
def pathEndArray (p : List PathComp) : List PathComp := p.tail

/-- Rendering of one component. -/
def renderComp : PathComp → String
  | .obj none => ""
  | .obj (some k) => "." ++ k
  | .arr i => if i = -1 then "" else "[" ++ toString i ++ "]"

/-- Path::render: "root" followed by the components outermost first. -/
def renderPath (p : List PathComp) : String :=
  p.reverse.foldl (fun acc c => acc ++ renderComp c) "root"

/-! ### Result model (ParseResult.hpp) -/

/-- The two error kinds of ParseResultBase::ErrorType. -/
inductive ErrKind where
  | jsonErr
  | parseErr
deriving DecidableEq

/-- ParseResultBase::Error together with the error kind.  A ParseResult
of T is embedded as Except Err T; ParseResult::convert_error is the
identity on the error, so it needs no separate definition. -/
structure Err where
  kind : ErrKind
  msg : String
  path : Option String
deriving DecidableEq

/-- Error::render. -/
def Err.render (e : Err) : String :=
  match e.path with
  | some p => e.msg ++ " at " ++ p
  | none => e.msg

/-! ### Token stream (TokenStream.hpp)

The public entry point builds a ContextTokenStream, so the model is the
path-tracking variant.  The external tokenizer is abstracted as the
list of tokens it will produce (toks) followed by its final report
(fin): ok for a completed JSON value, error for malformed input. -/

deriving instance DecidableEq for Except

/-- State of a ContextTokenStream over an abstracted tokenizer. -/
structure TokenStream where
  toks : List Token
  fin : Except String Unit
  cached : Option Token
  error : Option String
  path : List PathComp
deriving DecidableEq

/-- ContextTokenStream::on_advance: drive the path on a fresh token. -/
def onAdvance (p : List PathComp) : Token → List PathComp
  | .startObject => pathStartObject p
  | .key k => pathKey k p
  | .endObject _ => pathEndObject p
  | .startArray => pathStartArray p
  | .endArray _ => pathEndArray p
  | _ => pathValue p

namespace TokenStream

/-- TokenStream::has_error. -/
def hasError (s : TokenStream) : Bool := s.error.isSome

/-- TokenStream::get_error. -/
def getError (s : TokenStream) : String := s.error.getD ""

/-- TokenStream::is_complete: the reader finished a complete value and
no cached token is pending. -/
def isComplete (s : TokenStream) : Bool :=
  (s.toks.isEmpty && (match s.fin with | .ok _ => true | .error _ => false))
    && s.cached.isNone

/-- TokenStream::advance: pull one token from the tokenizer into the
handler, driving the path, or record the tokenizer failure. -/
def advance (s : TokenStream) : TokenStream :=
  match s.toks with
  | t :: rest => { s with toks := rest, cached := some t, path := onAdvance s.path t }
  | [] =>
    match s.fin with
    | .error e => { s with error := some e }
    | .ok _ => s

/-- TokenStream::acquire_token: returns whether a token is available
and the updated stream. -/
def acquireToken (s : TokenStream) : Bool × TokenStream :=
  if s.hasError || s.isComplete then (false, s)
  else
    let s' := if s.cached.isNone then s.advance else s
    (s'.cached.isSome, s')

/-- TokenStream::peek. -/
def peek (s : TokenStream) : Option Token × TokenStream :=
  let r := s.acquireToken
  (r.2.cached, r.2)

/-- TokenStream::next. -/
def next (s : TokenStream) : Option Token × TokenStream :=
  let r := s.acquireToken
  if r.1 then (r.2.cached, { r.2 with cached := none }) else (none, r.2)

/-- ContextTokenStream::get_path. -/
def getPath (s : TokenStream) : Option String := some (renderPath s.path)

/-- The tokens the stream still holds for its consumer: the cached one,
if any, followed by the not yet pulled ones. -/
def pending (s : TokenStream) : List Token :=
  match s.cached with
  | some t => t :: s.toks
  | none => s.toks

end TokenStream

/-! ### The value universe

The structural categories the dispatcher distinguishes (scalar,
nullable, sequence, string-keyed map, record via the field helpers) are
embedded as a deep type universe JTy with untyped values JVal and a
typing relation hasTy.  Records model the documented
DeserializationHelper / SerializationHelper idiom (a default
constructed object whose fields are bound to Field descriptors). -/

/-- Exact comparison of characters, as byte/code-unit comparison. -/
def charLt (a b : Char) : Bool := a.toNat < b.toNat

/-- Lexicographic order on character lists. -/
def strLtL : List Char → List Char → Bool
  | [], [] => false
  | [], _ :: _ => true
  | _ :: _, [] => false
  | a :: as, b :: bs => charLt a b || (a = b && strLtL as bs)

/-- Lexicographic order on strings; models the std::string less-than
used as the std::map key order. -/
def strLt (a b : String) : Bool := strLtL a.data b.data

/-- The eight standard integer target types. -/
inductive IntKind where
  | i8 | i16 | i32 | i64 | u8 | u16 | u32 | u64
deriving DecidableEq

/-- Descriptor of the target type. -/
def IntKind.ty : IntKind → IntTy
  | .i8 => i8ty
  | .i16 => i16ty
  | .i32 => i32ty
  | .i64 => i64ty
  | .u8 => u8ty
  | .u16 => u16ty
  | .u32 => u32ty
  | .u64 => u64ty

/-- Types with defined marshalling: bool, the integer types, strings,
std::optional, the three array-like containers (std::vector, std::set,
std::unordered_set), the two string-keyed dict-like containers
(std::map, std::unordered_map), and records declared through the
helper field lists.  Floating-point scalars are deliberately outside
this universe: their text round trip goes through rapidjson's dtoa
writer and a re-parse without kParseFullPrecisionFlag, so the sources
of this repository do not determine it. -/
inductive JTy where
  | jbool
  | jint (k : IntKind)
  | jstr
  | jopt (t : JTy)
  | jarr (t : JTy)
  | jset (t : JTy)
  | juset (t : JTy)
  | jdict (t : JTy)
  | judict (t : JTy)
  | jrec (fields : List (String × JTy))

/-- Values.  Dictionaries carry their entries in iteration order of
the backing container: for std::map keys strictly ascending by strLt,
for std::unordered_map an arbitrary order with distinct keys.
Array-like containers carry their elements in iteration order: for
std::set strictly ascending by the value order jvalLt, for
std::unordered_set an arbitrary order with distinct elements.  Records
carry their field values in declaration order. -/
inductive JVal where
  | vbool (b : Bool)
  | vint (v : Int)
  | vstr (s : String)
  | vnone
  | vsome (v : JVal)
  | varr (vs : List JVal)
  | vdict (es : List (String × JVal))
  | vrec (vs : List JVal)

mutual
def jvalBEq : JVal → JVal → Bool
  | .vbool a, .vbool b => a = b
  | .vint a, .vint b => a = b
  | .vstr a, .vstr b => a = b
  | .vnone, .vnone => true
  | .vsome a, .vsome b => jvalBEq a b
  | .varr a, .varr b => jvalListBEq a b
  | .vdict a, .vdict b => jvalEntriesBEq a b
  | .vrec a, .vrec b => jvalListBEq a b
  | _, _ => false
termination_by structural v _ => v
def jvalListBEq : List JVal → List JVal → Bool
  | [], [] => true
  | a :: as, b :: bs => jvalBEq a b && jvalListBEq as bs
  | _, _ => false
termination_by structural l _ => l
def jvalEntriesBEq : List (String × JVal) → List (String × JVal) → Bool
  | [], [] => true
  | (k, a) :: as, (k', b) :: bs => k = k' && jvalBEq a b && jvalEntriesBEq as bs
  | _, _ => false
termination_by structural l _ => l
end

mutual
theorem jvalBEq_iff : ∀ a b, jvalBEq a b = true ↔ a = b
  | a, b => by
    cases a <;> cases b <;> simp [jvalBEq]
    case vsome.vsome a b => exact jvalBEq_iff a b
    case varr.varr a b => exact jvalListBEq_iff a b
    case vdict.vdict a b => exact jvalEntriesBEq_iff a b
    case vrec.vrec a b => exact jvalListBEq_iff a b
termination_by structural a => a
theorem jvalListBEq_iff : ∀ a b, jvalListBEq a b = true ↔ a = b
  | a, b => by
    cases a <;> cases b <;> simp [jvalListBEq]
    case cons.cons x xs y ys =>
      exact and_congr (jvalBEq_iff x y) (jvalListBEq_iff xs ys)
termination_by structural a => a
theorem jvalEntriesBEq_iff : ∀ a b, jvalEntriesBEq a b = true ↔ a = b
  | [], [] => by simp [jvalEntriesBEq]
  | [], _ :: _ => by simp [jvalEntriesBEq]
  | _ :: _, [] => by simp [jvalEntriesBEq]
  | (k, va) :: as, (k', vb) :: bs => by
    simp only [jvalEntriesBEq, Bool.and_eq_true, decide_eq_true_eq,
      List.cons.injEq, Prod.mk.injEq]
    exact and_congr (and_congr Iff.rfl (jvalBEq_iff va vb))
      (jvalEntriesBEq_iff as bs)
termination_by structural a => a
end

instance : DecidableEq JVal := fun a b =>
  decidable_of_iff (jvalBEq a b = true) (jvalBEq_iff a b)

/-- Constructor tag used to extend the value order across constructors
(well-typed comparisons only ever compare values of one type, where
the tags agree or are the nullopt/engaged pair of std::optional). -/
def jvalRank : JVal → Nat
  | .vbool _ => 0
  | .vint _ => 1
  | .vstr _ => 2
  | .vnone => 3
  | .vsome _ => 4
  | .varr _ => 5
  | .vdict _ => 6
  | .vrec _ => 7

mutual
/-- The standard library's operator< on the marshalled types, which
std::set and std::map iteration order follows: bool false < true,
integers by value, strings lexicographic, std::optional with nullopt
below any engaged value (the rank catchall yields exactly this for
vnone/vsome), sequence containers lexicographic, std::map
lexicographic on key-value pairs.  Records stand in for user types,
whose std::set membership requires a user comparator; the canonical
field-lexicographic order represents it. -/
def jvalLt : JVal → JVal → Bool
  | .vbool a, .vbool b => !a && b
  | .vint a, .vint b => decide (a < b)
  | .vstr a, .vstr b => strLt a b
  | .vsome a, .vsome b => jvalLt a b
  | .varr a, .varr b => jvalLtList a b
  | .vdict a, .vdict b => jvalLtEntries a b
  | .vrec a, .vrec b => jvalLtList a b
  | a, b => decide (jvalRank a < jvalRank b)
termination_by structural a _ => a
/-- Lexicographic order on element sequences. -/
def jvalLtList : List JVal → List JVal → Bool
  | [], [] => false
  | [], _ :: _ => true
  | _ :: _, [] => false
  | a :: as, b :: bs => jvalLt a b || (jvalBEq a b && jvalLtList as bs)
termination_by structural l _ => l
/-- Lexicographic order on key-value entry sequences (std::pair
compares the key first, then the mapped value). -/
def jvalLtEntries : List (String × JVal) → List (String × JVal) → Bool
  | [], [] => false
  | [], _ :: _ => true
  | _ :: _, [] => false
  | (k, a) :: as, (k2, b) :: bs =>
    strLt k k2
      || (decide (k = k2)
          && (jvalLt a b || (jvalBEq a b && jvalLtEntries as bs)))
termination_by structural l _ => l
end

/-- Elements strictly ascending in std::set iteration order. -/
def strictSortedVals : List JVal → Bool
  | [] => true
  | [_] => true
  | a :: b :: r => jvalLt a b && strictSortedVals (b :: r)

/-- std::set::emplace: insert at the sorted position, keeping the
existing element on an equal one (no overwrite). -/
def setInsert (v : JVal) : List JVal → List JVal
  | [] => [v]
  | w :: rest =>
    if jvalLt v w then v :: w :: rest
    else if v = w then w :: rest
    else w :: setInsert v rest

/-- std::unordered_set::emplace: keep the container unchanged when an
equal element is present, otherwise add the element at the end of the
iteration order. -/
def usetInsert (v : JVal) (acc : List JVal) : List JVal :=
  if v ∈ acc then acc else acc ++ [v]

/-- std::unordered_map::emplace: keep the container unchanged when the
key is present, otherwise add the entry at the end of the iteration
order. -/
def udictInsert (k : String) (v : JVal) (acc : List (String × JVal)) :
    List (String × JVal) :=
  if k ∈ acc.map Prod.fst then acc else acc ++ [(k, v)]

/-- FieldBase::is_opt: whether the field type is nullable. -/
def JTy.isOpt : JTy → Bool
  | .jopt _ => true
  | _ => false

mutual
/-- Nesting depth of a type; used only to size the fuel of the fueled
parser model. -/
def JTy.depth : JTy → Nat
  | .jbool => 1
  | .jint _ => 1
  | .jstr => 1
  | .jopt t => t.depth + 1
  | .jarr t => t.depth + 1
  | .jset t => t.depth + 1
  | .juset t => t.depth + 1
  | .jdict t => t.depth + 1
  | .judict t => t.depth + 1
  | .jrec fs => fieldsDepth fs + 1
termination_by structural t => t
def fieldsDepth : List (String × JTy) → Nat
  | [] => 0
  | (_, t) :: fs => max t.depth (fieldsDepth fs)
termination_by structural fs => fs
end

mutual
/-- Default-constructed value of a type (the record parse idiom starts
from a default constructed object). -/
def JTy.defaultVal : JTy → JVal
  | .jbool => .vbool false
  | .jint _ => .vint 0
  | .jstr => .vstr ""
  | .jopt _ => .vnone
  | .jarr _ => .varr []
  | .jset _ => .varr []
  | .juset _ => .varr []
  | .jdict _ => .vdict []
  | .judict _ => .vdict []
  | .jrec fs => .vrec (defaultsOf fs)
termination_by structural t => t
def defaultsOf : List (String × JTy) → List JVal
  | [] => []
  | (_, t) :: fs => t.defaultVal :: defaultsOf fs
termination_by structural fs => fs
end

/-- Keys strictly ascending in std::map order. -/
def strictSorted : List String → Bool
  | [] => true
  | [_] => true
  | a :: b :: r => strLt a b && strictSorted (b :: r)

/-- Field names pairwise distinct (duplicate names among descriptors
are a caller programming error per the record marshaller contract). -/
def distinctNames (fs : List (String × JTy)) : Bool :=
  decide ((fs.map Prod.fst).Nodup)

mutual
/-- Typing relation: the value is a well-formed inhabitant of the type,
integer values in representable range, std::map keys strictly
ascending, std::set elements strictly ascending in the value order,
std::unordered_set elements pairwise distinct, std::unordered_map keys
pairwise distinct, record field lists with distinct names. -/
def hasTy : JVal → JTy → Bool
  | .vbool _, .jbool => true
  | .vint v, .jint k => decide (k.ty.minVal ≤ v ∧ v ≤ k.ty.maxVal)
  | .vstr _, .jstr => true
  | .vnone, .jopt _ => true
  | .vsome v, .jopt t => hasTy v t
  | .varr vs, .jarr t => hasTyList vs t
  | .varr vs, .jset t => strictSortedVals vs && hasTyList vs t
  | .varr vs, .juset t => decide vs.Nodup && hasTyList vs t
  | .vdict es, .jdict t =>
      strictSorted (es.map Prod.fst) && hasTyEntries es t
  | .vdict es, .judict t =>
      decide (es.map Prod.fst).Nodup && hasTyEntries es t
  | .vrec vs, .jrec fs => distinctNames fs && hasTyFields vs fs
  | _, _ => false
termination_by structural v _ => v
def hasTyList : List JVal → JTy → Bool
  | [], _ => true
  | v :: vs, t => hasTy v t && hasTyList vs t
termination_by structural l _ => l
def hasTyEntries : List (String × JVal) → JTy → Bool
  | [], _ => true
  | (_, v) :: es, t => hasTy v t && hasTyEntries es t
termination_by structural l _ => l
def hasTyFields : List JVal → List (String × JTy) → Bool
  | [], [] => true
  | v :: vs, (_, t) :: fs => hasTy v t && hasTyFields vs fs
  | _, _ => false
termination_by structural l _ => l
end

/-- Helper for noSomeNone: is the value not the absent optional. -/
def isNotNone : JVal → Bool
  | .vnone => false
  | _ => true

mutual
/-- No present optional directly holding an absent optional occurs in
the value (no some-of-none sub-value). -/
def noSomeNone : JVal → Bool
  | .vbool _ => true
  | .vint _ => true
  | .vstr _ => true
  | .vnone => true
  | .vsome v => isNotNone v && noSomeNone v
  | .varr vs => noSomeNoneList vs
  | .vdict es => noSomeNoneEntries es
  | .vrec vs => noSomeNoneList vs
termination_by structural v => v
def noSomeNoneList : List JVal → Bool
  | [] => true
  | v :: vs => noSomeNone v && noSomeNoneList vs
termination_by structural l => l
def noSomeNoneEntries : List (String × JVal) → Bool
  | [] => true
  | (_, v) :: es => noSomeNone v && noSomeNoneEntries es
termination_by structural l => l
end

/-! ### Serialization (SimpleWriter.hpp, Serializer.hpp,
SerializationHelper.hpp)

The writer is modelled by the lexical event it emits; dumping a value
yields the token list a reader of the written text would produce. -/

/-- SimpleWriter::integer of a runtime value of source integer type
srcTy: the choice of the writer primitive (Uint, Uint64, Int, Int64)
as the kind of the emitted number token. -/
def writerInteger (srcTy : IntTy) (v : Int) : Token :=
  if 0 < v then
    (if in_range u32ty srcTy v then .num u32ty v else .num u64ty v)
  else
    (if in_range i32ty srcTy v then .num i32ty v else .num i64ty v)

mutual
/-- Serializer::dump, type directed.  Records follow the
SerializationHelper::dump field-list idiom.  Ill-typed combinations
(ruled out by hasTy) emit nothing. -/
def dump : JTy → JVal → List Token
  | .jbool, .vbool b => [.bool b]
  | .jint k, .vint v => [writerInteger k.ty v]
  | .jstr, .vstr s => [.str s]
  | .jopt _, .vnone => [.null]
  | .jopt t, .vsome v => dump t v
  | .jarr t, .varr vs => .startArray :: (dumpList t vs ++ [.endArray vs.length])
  | .jset t, .varr vs => .startArray :: (dumpList t vs ++ [.endArray vs.length])
  | .juset t, .varr vs =>
      .startArray :: (dumpList t vs ++ [.endArray vs.length])
  | .jdict t, .vdict es =>
      .startObject :: (dumpEntries t es ++ [.endObject es.length])
  | .judict t, .vdict es =>
      .startObject :: (dumpEntries t es ++ [.endObject es.length])
  | .jrec fs, .vrec vs =>
      .startObject :: (dumpFields fs vs ++ [.endObject fs.length])
  | _, _ => []
termination_by structural _ v => v
def dumpList : JTy → List JVal → List Token
  | _, [] => []
  | t, v :: vs => dump t v ++ dumpList t vs
termination_by structural _ l => l
def dumpEntries : JTy → List (String × JVal) → List Token
  | _, [] => []
  | t, (k, v) :: es => .key k :: (dump t v ++ dumpEntries t es)
termination_by structural _ l => l
def dumpFields : List (String × JTy) → List JVal → List Token
  | (nm, t) :: fs, v :: vs => .key nm :: (dump t v ++ dumpFields fs vs)
  | _, _ => []
termination_by structural _ l => l
end

/-- Public dump entry point (Json.hpp): the token sequence of the
produced text. -/
def jsonDump (ty : JTy) (v : JVal) : List Token := dump ty v

/-! ### Deserialization (Deserializer.hpp, DeserializationHelper.hpp) -/

/-- Deserializer::unexpected_end_error. -/
def unexpectedEndError : String := "Unexpected end of json"

/-- Deserializer::unexpected_token_error with one expected kind. -/
def unexpectedTokenError1 (e1 : String) (t : Token) : String :=
  "Expected " ++ e1 ++ ", got " ++ t.name

/-- Deserializer::unexpected_token_error with two expected kinds. -/
def unexpectedTokenError2 (e1 e2 : String) (t : Token) : String :=
  "Expected " ++ e1 ++ "," ++ e2 ++ ", got " ++ t.name

/-- The error produced when the stream yields no token: a json error if
the tokenizer failed, the unexpected-end parse error otherwise. -/
def endError (s : TokenStream) : Err :=
  if s.hasError then ⟨.jsonErr, s.getError, s.getPath⟩
  else ⟨.parseErr, unexpectedEndError, s.getPath⟩

/-- Deserializer::parse_value_impl: parse a scalar target type from a
single consumed token.  The C++ walks the ValueTokens list (Bool, Int,
Uint, Int64, Uint64, Double, RawNumber, String); a token matches only
its own entry, so the walk is equivalent to this dispatch on the
token. -/
def parseValue (ty : JTy) (t : Token) (path : Option String) : Except Err JVal :=
  match t with
  | .bool b =>
    match ty with
    | .jbool => .ok (.vbool b)
    | _ => .error ⟨.parseErr, "Unexpected " ++ Token.name (.bool b), path⟩
  | .num tt v =>
    match ty with
    | .jint k =>
      if in_range k.ty tt v then .ok (.vint v)
      else .error ⟨.parseErr, "Integer value not in range", path⟩
    | _ => .error ⟨.parseErr, "Unexpected " ++ Token.name (.num tt v), path⟩
  | .rawNumber s =>
    match ty with
    | .jstr => .ok (.vstr s)
    | _ => .error ⟨.parseErr, "Unexpected " ++ Token.name (.rawNumber s), path⟩
  | .str s =>
    match ty with
    | .jstr => .ok (.vstr s)
    | _ => .error ⟨.parseErr, "Unexpected " ++ Token.name (.str s), path⟩
  | t => .error ⟨.parseErr, "Unexpected " ++ t.name, path⟩

/-- Deserializer::parse for scalar targets: consume one token and
dispatch; report the end/tokenizer error otherwise. -/
def parseScalar (ty : JTy) (s : TokenStream) : Except Err (JVal × TokenStream) :=
  let r := s.next
  match r.1 with
  | none => .error (endError r.2)
  | some t => (parseValue ty t r.2.getPath).map (fun v => (v, r.2))

/-- std::map::emplace: insert at the sorted position, keeping the
existing entry on an equal key (no overwrite). -/
def dictInsert (k : String) (v : JVal) : List (String × JVal) → List (String × JVal)
  | [] => [(k, v)]
  | (k', v') :: rest =>
    if strLt k k' then (k, v) :: (k', v') :: rest
    else if k = k' then (k', v') :: rest
    else (k', v') :: dictInsert k v rest

/-- Lookup in the name-to-index unordered_map model. -/
def mapLookup (k : String) : List (String × Nat) → Option Nat
  | [] => none
  | (k', i) :: m => if k = k' then some i else mapLookup k m

/-- Assignment into the name-to-index unordered_map: the new binding
shadows any earlier one for the same key. -/
def mapInsert (m : List (String × Nat)) (k : String) (i : Nat) : List (String × Nat) :=
  (k, i) :: m

/-- DeserializationHelper::build_fields_map: fold over the fields with
an incrementing counter, assigning name to index. -/
def buildFieldsMapAux (i : Nat) : List (String × JTy) → List (String × Nat) → List (String × Nat)
  | [], m => m
  | (nm, _) :: fs, m => buildFieldsMapAux (i + 1) fs (mapInsert m nm i)

/-- Name-to-index lookup table over the field descriptors. -/
def buildFieldsMap (fs : List (String × JTy)) : List (String × Nat) :=
  buildFieldsMapAux 0 fs []

/-- The conjunction Field::is_ready over all fields: each is set or of
nullable type.  Field states are (stored value, set flag) in field
declaration order. -/
def allReady (fs : List (String × JTy)) (st : List (JVal × Bool)) : Bool :=
  (fs.zip st).all (fun p => p.2.2 || p.1.2.isOpt)

/-- DeserializationHelper::missing_keys_error. -/
def missingKeysMsg (fs : List (String × JTy)) (st : List (JVal × Bool)) : String :=
  ((fs.zip st).foldl
      (fun acc p => acc ++ (if p.2.2 || p.1.2.isOpt then "" else p.1.1 ++ ", "))
      "Missing keys: ")
    ++ "got end object"

/-- Error result for exhausted fuel.  The fuel passed by jsonParse
provably exceeds the recursion depth of the C++ parser on the given
input, so this branch models no reachable behavior. -/
def fuelError : Err := ⟨.parseErr, "fuel exhausted", none⟩

mutual
/-- Deserializer::parse: type-directed dispatch over the structural
category of the target type. -/
def parse : Nat → JTy → TokenStream → Except Err (JVal × TokenStream)
  | 0, _, _ => .error fuelError
  | f + 1, ty, s =>
    match ty with
    | .jbool => parseScalar .jbool s
    | .jint k => parseScalar (.jint k) s
    | .jstr => parseScalar .jstr s
    | .jopt t =>
      let r := s.peek
      match r.1 with
      | none => .error (endError r.2)
      | some .null => .ok (.vnone, (r.2.next).2)
      | some _ =>
        match parse f t r.2 with
        | .ok (v, s') => .ok (.vsome v, s')
        | .error e => .error e
    | .jarr t =>
      let r := s.next
      match r.1 with
      | none => .error (endError r.2)
      | some .startArray => parseElems f t r.2 []
      | some tok =>
        .error ⟨.parseErr, unexpectedTokenError1 "start array" tok, r.2.getPath⟩
    | .jset t =>
      let r := s.next
      match r.1 with
      | none => .error (endError r.2)
      | some .startArray => parseSetElems f t r.2 []
      | some tok =>
        .error ⟨.parseErr, unexpectedTokenError1 "start array" tok, r.2.getPath⟩
    | .juset t =>
      let r := s.next
      match r.1 with
      | none => .error (endError r.2)
      | some .startArray => parseUSetElems f t r.2 []
      | some tok =>
        .error ⟨.parseErr, unexpectedTokenError1 "start array" tok, r.2.getPath⟩
    | .jdict t =>
      let r := s.next
      match r.1 with
      | none => .error (endError r.2)
      | some .startObject => parseDict f t r.2 []
      | some tok =>
        .error ⟨.parseErr, unexpectedTokenError1 "start object" tok, r.2.getPath⟩
    | .judict t =>
      let r := s.next
      match r.1 with
      | none => .error (endError r.2)
      | some .startObject => parseUDict f t r.2 []
      | some tok =>
        .error ⟨.parseErr, unexpectedTokenError1 "start object" tok, r.2.getPath⟩
    | .jrec fs =>
      let r := parseObject f fs ((defaultsOf fs).map (fun v => (v, false))) s
      match r.1 with
      | .ok s' => .ok (.vrec (r.2.map Prod.fst), s')
      | .error e => .error e
termination_by structural f _ _ => f
/-- The element loop of the array specialization of
Deserializer::parse. -/
def parseElems : Nat → JTy → TokenStream → List JVal → Except Err (JVal × TokenStream)
  | 0, _, _, _ => .error fuelError
  | f + 1, t, s, acc =>
    let r := s.peek
    match r.1 with
    | none => .error (endError r.2)
    | some (.endArray _) => .ok (.varr acc, (r.2.next).2)
    | some _ =>
      match parse f t r.2 with
      | .error e => .error e
      | .ok (v, s') => parseElems f t s' (acc ++ [v])
termination_by structural f _ _ _ => f
/-- The element loop of the array specialization of
Deserializer::parse instantiated at std::set: the same token loop,
with is_array_like emplace inserting at the sorted position. -/
def parseSetElems : Nat → JTy → TokenStream → List JVal → Except Err (JVal × TokenStream)
  | 0, _, _, _ => .error fuelError
  | f + 1, t, s, acc =>
    let r := s.peek
    match r.1 with
    | none => .error (endError r.2)
    | some (.endArray _) => .ok (.varr acc, (r.2.next).2)
    | some _ =>
      match parse f t r.2 with
      | .error e => .error e
      | .ok (v, s') => parseSetElems f t s' (setInsert v acc)
termination_by structural f _ _ _ => f
/-- The element loop of the array specialization of
Deserializer::parse instantiated at std::unordered_set: the same token
loop, with is_array_like emplace adding unseen elements. -/
def parseUSetElems : Nat → JTy → TokenStream → List JVal → Except Err (JVal × TokenStream)
  | 0, _, _, _ => .error fuelError
  | f + 1, t, s, acc =>
    let r := s.peek
    match r.1 with
    | none => .error (endError r.2)
    | some (.endArray _) => .ok (.varr acc, (r.2.next).2)
    | some _ =>
      match parse f t r.2 with
      | .error e => .error e
      | .ok (v, s') => parseUSetElems f t s' (usetInsert v acc)
termination_by structural f _ _ _ => f
/-- The member loop of the dict specialization of
Deserializer::parse. -/
def parseDict : Nat → JTy → TokenStream → List (String × JVal) → Except Err (JVal × TokenStream)
  | 0, _, _, _ => .error fuelError
  | f + 1, t, s, acc =>
    let r := s.next
    match r.1 with
    | none => .error (endError r.2)
    | some (.endObject _) => .ok (.vdict acc, r.2)
    | some (.key k) =>
      match parse f t r.2 with
      | .error e => .error e
      | .ok (v, s') => parseDict f t s' (dictInsert k v acc)
    | some tok =>
      .error ⟨.parseErr, unexpectedTokenError2 "key" "end object" tok, r.2.getPath⟩
termination_by structural f _ _ _ => f
/-- The member loop of the dict specialization of Deserializer::parse
instantiated at std::unordered_map: the same token loop, with
is_dict_like emplace adding entries with unseen keys. -/
def parseUDict : Nat → JTy → TokenStream → List (String × JVal) → Except Err (JVal × TokenStream)
  | 0, _, _, _ => .error fuelError
  | f + 1, t, s, acc =>
    let r := s.next
    match r.1 with
    | none => .error (endError r.2)
    | some (.endObject _) => .ok (.vdict acc, r.2)
    | some (.key k) =>
      match parse f t r.2 with
      | .error e => .error e
      | .ok (v, s') => parseUDict f t s' (udictInsert k v acc)
    | some tok =>
      .error ⟨.parseErr, unexpectedTokenError2 "key" "end object" tok, r.2.getPath⟩
termination_by structural f _ _ _ => f
/-- DeserializationHelper::parse_object: require StartObject, then run
the key loop.  The field states are the referenced storage of the
caller together with the set flags; they are returned in both the
success and the error case, since the C++ writes through the references
as it goes. -/
def parseObject : Nat → List (String × JTy) → List (JVal × Bool) → TokenStream → Except Err TokenStream × List (JVal × Bool)
  | 0, _, st, _ => (.error fuelError, st)
  | f + 1, fs, st, s =>
    let r := s.next
    match r.1 with
    | none => (.error (endError r.2), st)
    | some .startObject => parseObjLoop f fs st r.2
    | some tok =>
      (.error ⟨.parseErr, unexpectedTokenError1 "start object" tok, r.2.getPath⟩, st)
termination_by structural f _ _ _ => f
/-- The key loop of DeserializationHelper::parse_object, with
DeserializationHelper::parse_field inlined at the key case. -/
def parseObjLoop : Nat → List (String × JTy) → List (JVal × Bool) → TokenStream → Except Err TokenStream × List (JVal × Bool)
  | 0, _, st, _ => (.error fuelError, st)
  | f + 1, fs, st, s =>
    let r := s.next
    match r.1 with
    | none => (.error (endError r.2), st)
    | some (.endObject _) =>
      if allReady fs st then (.ok r.2, st)
      else (.error ⟨.parseErr, missingKeysMsg fs st, r.2.getPath⟩, st)
    | some (.key k) =>
      match mapLookup k (buildFieldsMap fs) with
      | none => (.error ⟨.parseErr, "Unexpected key: " ++ k, r.2.getPath⟩, st)
      | some i =>
        match fs.get? i, st.get? i with
        | some (_, ft), some (_w, isSet) =>
          if isSet then (.error ⟨.parseErr, "Duplicate key: " ++ k, r.2.getPath⟩, st)
          else
            match parse f ft r.2 with
            | .error e => (.error e, st)
            | .ok (v, s') => parseObjLoop f fs (st.set i (v, true)) s'
        | _, _ => (.error ⟨.parseErr, "field index out of bounds", none⟩, st)
    | some tok =>
      (.error ⟨.parseErr, unexpectedTokenError2 "key" "end object" tok, r.2.getPath⟩, st)
termination_by structural f _ _ _ => f
end

/-- A fresh stream over the token sequence of a text whose tokenizer
completes after the listed tokens. -/
def mkStream (toks : List Token) : TokenStream :=
  ⟨toks, .ok (), none, none, []⟩

/-- Public parse entry point (Json.hpp): build a fresh path-tracking
stream over the text and run the dispatcher.  The fuel bounds the
recursion depth; input length plus type depth exceeds the depth of any
run of the C++ parser on the given tokens. -/
def jsonParse (ty : JTy) (toks : List Token) : Except Err JVal :=
  (parse (toks.length + ty.depth + 1) ty (mkStream toks)).map Prod.fst

/-- A stream over the same state with further tokens appended to the
tokenizer (used to relate parses of a text and of that text extended
with trailing input). -/
def appendToks (s : TokenStream) (e : List Token) : TokenStream :=
  { s with toks := s.toks ++ e }

/-! ### Reduction of the exact range check to mathematical bounds -/

theorem toUnsigned_eq_self {bits : Nat} {v : Int} (h0 : 0 ≤ v) (h1 : v < 2 ^ bits) :
    toUnsigned bits v = v :=
  Int.emod_eq_of_lt h0 h1

theorem maxVal_lt_pow (X : IntTy) : X.maxVal < 2 ^ X.bits := by
  unfold IntTy.maxVal
  have h : (2 : Int) ^ (X.bits - 1) ≤ 2 ^ X.bits :=
    pow_le_pow_right₀ (by norm_num) (Nat.sub_le X.bits 1)
  split <;> omega

/-- For a value representable in its own type T, the std-style exact
range check against R coincides with the mathematical bounds of R. -/
theorem in_range_iff (R T : IntTy) (t : Int)
    (hlo : T.minVal ≤ t) (hhi : t ≤ T.maxVal) :
    in_range R T t = true ↔ (R.minVal ≤ t ∧ t ≤ R.maxVal) := by
  have hTmax := maxVal_lt_pow T
  have hRmax := maxVal_lt_pow R
  unfold in_range cmp_greater_equal cmp_less_equal cmp_greater cmp_less
  cases hTv : T.sgn <;> cases hRv : R.sgn <;>
    simp only [hTv, hRv, if_true, if_false, Bool.false_eq_true, Bool.true_eq_false,
      Bool.and_eq_true, Bool.not_eq_true', decide_eq_false_iff_not,
      decide_eq_true_eq, not_lt]
  · -- T unsigned, R signed
    have hTmin : T.minVal = 0 := by simp [IntTy.minVal, hTv]
    have hpos : (0 : Int) < 2 ^ (R.bits - 1) := by positivity
    have hRminneg : R.minVal < 0 := by simp only [IntTy.minVal, if_pos hRv]; omega
    have hRmaxpos : 0 ≤ R.maxVal := by simp only [IntTy.maxVal, if_pos hRv]; omega
    rw [if_pos hRminneg, if_neg (not_lt.mpr hRmaxpos), toUnsigned_eq_self hRmaxpos hRmax]
    simp only [decide_eq_false_iff_not, not_lt]
    constructor
    · rintro ⟨-, h⟩
      exact ⟨by omega, h⟩
    · rintro ⟨-, h⟩
      exact ⟨trivial, h⟩
  · -- T signed, R unsigned
    have hRmin : R.minVal = 0 := by simp [IntTy.minVal, hRv]
    by_cases h0 : t < 0
    · rw [if_pos h0, if_pos h0]
      simp only [hRmin]
      simp only [Bool.true_eq_false, false_and, false_iff]
      omega
    · push_neg at h0
      rw [if_neg (not_lt.mpr h0), if_neg (not_lt.mpr h0),
        toUnsigned_eq_self h0 (by omega), hRmin]
      simp only [decide_eq_false_iff_not, not_lt]

/-! ### Stream and parser stepping lemmas -/


theorem peek_cached {s : TokenStream} {o : Option Token} {s2 : TokenStream}
    (h : s.peek = (o, s2)) : s2.cached = o := by
  rw [TokenStream.peek] at h
  injection h with h1 h2
  subst h2
  exact h1

theorem next_appendToks {s : TokenStream} {t : Token} {s1 : TokenStream}
    (h : s.next = (some t, s1)) (e : List Token) :
    (appendToks s e).next = (some t, appendToks s1 e) := by
  obtain ⟨toks, fin, cached, error, path⟩ := s
  cases error <;> cases cached <;> cases toks <;> cases fin <;>
    simp_all [TokenStream.next, TokenStream.acquireToken, TokenStream.hasError,
      TokenStream.isComplete, TokenStream.advance, appendToks] <;>
    (obtain ⟨rfl, rfl⟩ := h
     simp [TokenStream.next, TokenStream.acquireToken, TokenStream.hasError,
       TokenStream.isComplete, TokenStream.advance, appendToks])

theorem peek_appendToks {s : TokenStream} {t : Token} {s1 : TokenStream}
    (h : s.peek = (some t, s1)) (e : List Token) :
    (appendToks s e).peek = (some t, appendToks s1 e) := by
  obtain ⟨toks, fin, cached, error, path⟩ := s
  cases error <;> cases cached <;> cases toks <;> cases fin <;>
    simp_all [TokenStream.peek, TokenStream.acquireToken, TokenStream.hasError,
      TokenStream.isComplete, TokenStream.advance, appendToks] <;>
    (obtain ⟨rfl, rfl⟩ := h
     simp [TokenStream.peek, TokenStream.acquireToken, TokenStream.hasError,
       TokenStream.isComplete, TokenStream.advance, appendToks])

theorem next_snd_cached_append {s1 : TokenStream} {t : Token}
    (hc : s1.cached = some t) (e : List Token) :
    ((appendToks s1 e).next).2 = appendToks ((s1.next).2) e := by
  obtain ⟨toks, fin, cached, error, path⟩ := s1
  cases error <;> cases cached <;>
    simp_all [TokenStream.next, TokenStream.acquireToken, TokenStream.hasError,
      TokenStream.isComplete, TokenStream.advance, appendToks]

theorem getPath_appendToks (s : TokenStream) (e : List Token) :
    (appendToks s e).getPath = s.getPath := by
  simp [appendToks, TokenStream.getPath]

/-! Unfolding lemmas for one step of the fueled parser. -/

theorem parseScalar_next {s : TokenStream} {t : Token} {s2 : TokenStream}
    (h : s.next = (some t, s2)) (ty : JTy) :
    parseScalar ty s = (parseValue ty t s2.getPath).map (fun v => (v, s2)) := by
  rw [parseScalar, h]

theorem parseScalar_none {s : TokenStream} {s2 : TokenStream}
    (h : s.next = (none, s2)) (ty : JTy) :
    parseScalar ty s = .error (endError s2) := by
  rw [parseScalar, h]

theorem parse_jbool_succ (f : Nat) (s : TokenStream) :
    parse (f + 1) .jbool s = parseScalar .jbool s := by
  rw [parse]

theorem parse_jint_succ (f : Nat) (k : IntKind) (s : TokenStream) :
    parse (f + 1) (.jint k) s = parseScalar (.jint k) s := by
  rw [parse]

theorem parse_jstr_succ (f : Nat) (s : TokenStream) :
    parse (f + 1) .jstr s = parseScalar .jstr s := by
  rw [parse]

theorem parse_jopt_null {s s2 : TokenStream} (f : Nat) (t : JTy)
    (h : s.peek = (some .null, s2)) :
    parse (f + 1) (.jopt t) s = .ok (.vnone, (s2.next).2) := by
  rw [parse, h]

theorem parse_jopt_step {s s2 : TokenStream} {tok : Token} (f : Nat) (t : JTy)
    (h : s.peek = (some tok, s2)) (hnn : tok ≠ .null) :
    parse (f + 1) (.jopt t) s
      = match parse f t s2 with
        | .ok (w, s') => .ok (.vsome w, s')
        | .error e => .error e := by
  rw [parse, h]
  cases tok <;> first | exact absurd rfl hnn | rfl

theorem parse_jarr_start {s s2 : TokenStream} (f : Nat) (t : JTy)
    (h : s.next = (some .startArray, s2)) :
    parse (f + 1) (.jarr t) s = parseElems f t s2 [] := by
  rw [parse, h]

theorem parse_jdict_start {s s2 : TokenStream} (f : Nat) (t : JTy)
    (h : s.next = (some .startObject, s2)) :
    parse (f + 1) (.jdict t) s = parseDict f t s2 [] := by
  rw [parse, h]

theorem parse_jrec_step {s : TokenStream} (f : Nat) (fs : List (String × JTy))
    {res : Except Err TokenStream} {st' : List (JVal × Bool)}
    (h : parseObject f fs ((defaultsOf fs).map (fun v => (v, false))) s
      = (res, st')) :
    parse (f + 1) (.jrec fs) s
      = match res with
        | .ok s' => .ok (.vrec (st'.map Prod.fst), s')
        | .error e => .error e := by
  have h1 : (parseObject f fs ((defaultsOf fs).map (fun v => (v, false))) s).1
      = res := by rw [h]
  have h2 : (parseObject f fs ((defaultsOf fs).map (fun v => (v, false))) s).2
      = st' := by rw [h]
  rw [parse, h1, h2]
  cases res <;> rfl

theorem parseElems_end {s s2 : TokenStream} {n : Nat} (f : Nat) (t : JTy)
    (acc : List JVal) (h : s.peek = (some (.endArray n), s2)) :
    parseElems (f + 1) t s acc = .ok (.varr acc, (s2.next).2) := by
  rw [parseElems, h]

theorem parseElems_step {s s2 : TokenStream} {tok : Token} (f : Nat) (t : JTy)
    (acc : List JVal) (h : s.peek = (some tok, s2))
    (hne : ∀ n, tok ≠ .endArray n) :
    parseElems (f + 1) t s acc
      = match parse f t s2 with
        | .error e => .error e
        | .ok (v, s') => parseElems f t s' (acc ++ [v]) := by
  rw [parseElems, h]
  cases tok <;> first | exact absurd rfl (hne _) | rfl

theorem parseDict_end {s s2 : TokenStream} {n : Nat} (f : Nat) (t : JTy)
    (acc : List (String × JVal)) (h : s.next = (some (.endObject n), s2)) :
    parseDict (f + 1) t s acc = .ok (.vdict acc, s2) := by
  rw [parseDict, h]

theorem parseDict_key {s s2 : TokenStream} {k : String} (f : Nat) (t : JTy)
    (acc : List (String × JVal)) (h : s.next = (some (.key k), s2)) :
    parseDict (f + 1) t s acc
      = match parse f t s2 with
        | .error e => .error e
        | .ok (v, s') => parseDict f t s' (dictInsert k v acc) := by
  rw [parseDict, h]

theorem parseObject_start {s s2 : TokenStream} (f : Nat)
    (fs : List (String × JTy)) (st : List (JVal × Bool))
    (h : s.next = (some .startObject, s2)) :
    parseObject (f + 1) fs st s = parseObjLoop f fs st s2 := by
  rw [parseObject, h]

theorem parseObjLoop_end {s s2 : TokenStream} {n : Nat} (f : Nat)
    (fs : List (String × JTy)) (st : List (JVal × Bool))
    (h : s.next = (some (.endObject n), s2)) :
    parseObjLoop (f + 1) fs st s
      = (if allReady fs st then (.ok s2, st)
         else (.error ⟨.parseErr, missingKeysMsg fs st, s2.getPath⟩, st)) := by
  rw [parseObjLoop, h]

theorem parseObjLoop_key {s s2 : TokenStream} {k : String} {i : Nat}
    {nm : String} {ft : JTy} {w : JVal} {b : Bool} (f : Nat)
    (fs : List (String × JTy)) (st : List (JVal × Bool))
    (h : s.next = (some (.key k), s2))
    (hlk : mapLookup k (buildFieldsMap fs) = some i)
    (hfi : fs[i]? = some (nm, ft)) (hsi : st[i]? = some (w, b)) :
    parseObjLoop (f + 1) fs st s
      = (if b then
          (.error ⟨.parseErr, "Duplicate key: " ++ k, s2.getPath⟩, st)
         else
          match parse f ft s2 with
          | .error e => (.error e, st)
          | .ok (v, s') => parseObjLoop f fs (st.set i (v, true)) s') := by
  rw [parseObjLoop, h]
  simp only [hlk, List.get?_eq_getElem?, hfi, hsi]

theorem parseObjLoop_unknown_key {s s2 : TokenStream} {k : String} (f : Nat)
    (fs : List (String × JTy)) (st : List (JVal × Bool))
    (h : s.next = (some (.key k), s2))
    (hlk : mapLookup k (buildFieldsMap fs) = none) :
    parseObjLoop (f + 1) fs st s
      = (.error ⟨.parseErr, "Unexpected key: " ++ k, s2.getPath⟩, st) := by
  rw [parseObjLoop, h]
  simp only [hlk]

theorem parse_jopt_none {s s2 : TokenStream} (f : Nat) (t : JTy)
    (h : s.peek = (none, s2)) :
    parse (f + 1) (.jopt t) s = .error (endError s2) := by
  rw [parse, h]

theorem parse_jarr_none {s s2 : TokenStream} (f : Nat) (t : JTy)
    (h : s.next = (none, s2)) :
    parse (f + 1) (.jarr t) s = .error (endError s2) := by
  rw [parse, h]

theorem parse_jarr_mismatch {s s2 : TokenStream} {tok : Token} (f : Nat)
    (t : JTy) (h : s.next = (some tok, s2)) (hne : tok ≠ .startArray) :
    parse (f + 1) (.jarr t) s
      = .error ⟨.parseErr, unexpectedTokenError1 "start array" tok,
          s2.getPath⟩ := by
  rw [parse, h]
  cases tok <;> first | exact absurd rfl hne | rfl

theorem parse_jdict_none {s s2 : TokenStream} (f : Nat) (t : JTy)
    (h : s.next = (none, s2)) :
    parse (f + 1) (.jdict t) s = .error (endError s2) := by
  rw [parse, h]

theorem parse_jdict_mismatch {s s2 : TokenStream} {tok : Token} (f : Nat)
    (t : JTy) (h : s.next = (some tok, s2)) (hne : tok ≠ .startObject) :
    parse (f + 1) (.jdict t) s
      = .error ⟨.parseErr, unexpectedTokenError1 "start object" tok,
          s2.getPath⟩ := by
  rw [parse, h]
  cases tok <;> first | exact absurd rfl hne | rfl

theorem parseElems_none {s s2 : TokenStream} (f : Nat) (t : JTy)
    (acc : List JVal) (h : s.peek = (none, s2)) :
    parseElems (f + 1) t s acc = .error (endError s2) := by
  rw [parseElems, h]

theorem parseDict_none {s s2 : TokenStream} (f : Nat) (t : JTy)
    (acc : List (String × JVal)) (h : s.next = (none, s2)) :
    parseDict (f + 1) t s acc = .error (endError s2) := by
  rw [parseDict, h]

theorem parseDict_mismatch {s s2 : TokenStream} {tok : Token} (f : Nat)
    (t : JTy) (acc : List (String × JVal)) (h : s.next = (some tok, s2))
    (hne1 : ∀ n, tok ≠ .endObject n) (hne2 : ∀ k, tok ≠ .key k) :
    parseDict (f + 1) t s acc
      = .error ⟨.parseErr, unexpectedTokenError2 "key" "end object" tok,
          s2.getPath⟩ := by
  rw [parseDict, h]
  cases tok <;>
    first
      | exact absurd rfl (hne1 _)
      | exact absurd rfl (hne2 _)
      | rfl

theorem parseObject_none {s s2 : TokenStream} (f : Nat)
    (fs : List (String × JTy)) (st : List (JVal × Bool))
    (h : s.next = (none, s2)) :
    parseObject (f + 1) fs st s = (.error (endError s2), st) := by
  rw [parseObject, h]

theorem parseObject_mismatch {s s2 : TokenStream} {tok : Token} (f : Nat)
    (fs : List (String × JTy)) (st : List (JVal × Bool))
    (h : s.next = (some tok, s2)) (hne : tok ≠ .startObject) :
    parseObject (f + 1) fs st s
      = (.error ⟨.parseErr, unexpectedTokenError1 "start object" tok,
          s2.getPath⟩, st) := by
  rw [parseObject, h]
  cases tok <;> first | exact absurd rfl hne | rfl

theorem parseObjLoop_none {s s2 : TokenStream} (f : Nat)
    (fs : List (String × JTy)) (st : List (JVal × Bool))
    (h : s.next = (none, s2)) :
    parseObjLoop (f + 1) fs st s = (.error (endError s2), st) := by
  rw [parseObjLoop, h]

theorem parseObjLoop_mismatch {s s2 : TokenStream} {tok : Token} (f : Nat)
    (fs : List (String × JTy)) (st : List (JVal × Bool))
    (h : s.next = (some tok, s2))
    (hne1 : ∀ n, tok ≠ .endObject n) (hne2 : ∀ k, tok ≠ .key k) :
    parseObjLoop (f + 1) fs st s
      = (.error ⟨.parseErr, unexpectedTokenError2 "key" "end object" tok,
          s2.getPath⟩, st) := by
  rw [parseObjLoop, h]
  cases tok <;>
    first
      | exact absurd rfl (hne1 _)
      | exact absurd rfl (hne2 _)
      | rfl

theorem parseScalar_append {ty : JTy} {s : TokenStream} {v : JVal}
    {s1 : TokenStream} (h : parseScalar ty s = .ok (v, s1)) (e : List Token) :
    parseScalar ty (appendToks s e) = .ok (v, appendToks s1 e) := by
  rcases hn : TokenStream.next s with ⟨o, s2⟩
  cases o with
  | none =>
    rw [parseScalar_none hn] at h
    exact Except.noConfusion h
  | some t =>
    rw [parseScalar_next hn] at h
    rw [parseScalar_next (next_appendToks hn e), getPath_appendToks]
    rcases hpv : parseValue ty t s2.getPath with err | w
    · rw [hpv] at h
      exact Except.noConfusion h
    · rw [hpv] at h
      injection h with h1
      injection h1 with ha hb
      subst ha
      subst hb
      rfl

/-! ### Monotonicity in fuel and locality in the token source: a
successful parse is unchanged under more fuel and trailing tokens. -/

theorem parse_jset_start {s s2 : TokenStream} (f : Nat) (t : JTy)
    (h : s.next = (some .startArray, s2)) :
    parse (f + 1) (.jset t) s = parseSetElems f t s2 [] := by
  rw [parse, h]

theorem parse_jset_none {s s2 : TokenStream} (f : Nat) (t : JTy)
    (h : s.next = (none, s2)) :
    parse (f + 1) (.jset t) s = .error (endError s2) := by
  rw [parse, h]

theorem parse_jset_mismatch {s s2 : TokenStream} {tok : Token} (f : Nat)
    (t : JTy) (h : s.next = (some tok, s2)) (hne : tok ≠ .startArray) :
    parse (f + 1) (.jset t) s
      = .error ⟨.parseErr, unexpectedTokenError1 "start array" tok,
          s2.getPath⟩ := by
  rw [parse, h]
  cases tok <;> first | exact absurd rfl hne | rfl

theorem parse_juset_start {s s2 : TokenStream} (f : Nat) (t : JTy)
    (h : s.next = (some .startArray, s2)) :
    parse (f + 1) (.juset t) s = parseUSetElems f t s2 [] := by
  rw [parse, h]

theorem parse_juset_none {s s2 : TokenStream} (f : Nat) (t : JTy)
    (h : s.next = (none, s2)) :
    parse (f + 1) (.juset t) s = .error (endError s2) := by
  rw [parse, h]

theorem parse_juset_mismatch {s s2 : TokenStream} {tok : Token} (f : Nat)
    (t : JTy) (h : s.next = (some tok, s2)) (hne : tok ≠ .startArray) :
    parse (f + 1) (.juset t) s
      = .error ⟨.parseErr, unexpectedTokenError1 "start array" tok,
          s2.getPath⟩ := by
  rw [parse, h]
  cases tok <;> first | exact absurd rfl hne | rfl

theorem parse_judict_start {s s2 : TokenStream} (f : Nat) (t : JTy)
    (h : s.next = (some .startObject, s2)) :
    parse (f + 1) (.judict t) s = parseUDict f t s2 [] := by
  rw [parse, h]

theorem parse_judict_none {s s2 : TokenStream} (f : Nat) (t : JTy)
    (h : s.next = (none, s2)) :
    parse (f + 1) (.judict t) s = .error (endError s2) := by
  rw [parse, h]

theorem parse_judict_mismatch {s s2 : TokenStream} {tok : Token} (f : Nat)
    (t : JTy) (h : s.next = (some tok, s2)) (hne : tok ≠ .startObject) :
    parse (f + 1) (.judict t) s
      = .error ⟨.parseErr, unexpectedTokenError1 "start object" tok,
          s2.getPath⟩ := by
  rw [parse, h]
  cases tok <;> first | exact absurd rfl hne | rfl

theorem parseSetElems_end {s s2 : TokenStream} {n : Nat} (f : Nat) (t : JTy)
    (acc : List JVal) (h : s.peek = (some (.endArray n), s2)) :
    parseSetElems (f + 1) t s acc = .ok (.varr acc, (s2.next).2) := by
  rw [parseSetElems, h]

theorem parseSetElems_step {s s2 : TokenStream} {tok : Token} (f : Nat)
    (t : JTy) (acc : List JVal) (h : s.peek = (some tok, s2))
    (hne : ∀ n, tok ≠ .endArray n) :
    parseSetElems (f + 1) t s acc
      = match parse f t s2 with
        | .error e => .error e
        | .ok (v, s') => parseSetElems f t s' (setInsert v acc) := by
  rw [parseSetElems, h]
  cases tok <;> first | exact absurd rfl (hne _) | rfl

theorem parseSetElems_none {s s2 : TokenStream} (f : Nat) (t : JTy)
    (acc : List JVal) (h : s.peek = (none, s2)) :
    parseSetElems (f + 1) t s acc = .error (endError s2) := by
  rw [parseSetElems, h]

theorem parseUSetElems_end {s s2 : TokenStream} {n : Nat} (f : Nat) (t : JTy)
    (acc : List JVal) (h : s.peek = (some (.endArray n), s2)) :
    parseUSetElems (f + 1) t s acc = .ok (.varr acc, (s2.next).2) := by
  rw [parseUSetElems, h]

theorem parseUSetElems_step {s s2 : TokenStream} {tok : Token} (f : Nat)
    (t : JTy) (acc : List JVal) (h : s.peek = (some tok, s2))
    (hne : ∀ n, tok ≠ .endArray n) :
    parseUSetElems (f + 1) t s acc
      = match parse f t s2 with
        | .error e => .error e
        | .ok (v, s') => parseUSetElems f t s' (usetInsert v acc) := by
  rw [parseUSetElems, h]
  cases tok <;> first | exact absurd rfl (hne _) | rfl

theorem parseUSetElems_none {s s2 : TokenStream} (f : Nat) (t : JTy)
    (acc : List JVal) (h : s.peek = (none, s2)) :
    parseUSetElems (f + 1) t s acc = .error (endError s2) := by
  rw [parseUSetElems, h]

theorem parseUDict_end {s s2 : TokenStream} {n : Nat} (f : Nat) (t : JTy)
    (acc : List (String × JVal)) (h : s.next = (some (.endObject n), s2)) :
    parseUDict (f + 1) t s acc = .ok (.vdict acc, s2) := by
  rw [parseUDict, h]

theorem parseUDict_key {s s2 : TokenStream} {k : String} (f : Nat) (t : JTy)
    (acc : List (String × JVal)) (h : s.next = (some (.key k), s2)) :
    parseUDict (f + 1) t s acc
      = match parse f t s2 with
        | .error e => .error e
        | .ok (v, s') => parseUDict f t s' (udictInsert k v acc) := by
  rw [parseUDict, h]

theorem parseUDict_none {s s2 : TokenStream} (f : Nat) (t : JTy)
    (acc : List (String × JVal)) (h : s.next = (none, s2)) :
    parseUDict (f + 1) t s acc = .error (endError s2) := by
  rw [parseUDict, h]

theorem parseUDict_mismatch {s s2 : TokenStream} {tok : Token} (f : Nat)
    (t : JTy) (acc : List (String × JVal)) (h : s.next = (some tok, s2))
    (hne1 : ∀ n, tok ≠ .endObject n) (hne2 : ∀ k, tok ≠ .key k) :
    parseUDict (f + 1) t s acc
      = .error ⟨.parseErr, unexpectedTokenError2 "key" "end object" tok,
          s2.getPath⟩ := by
  rw [parseUDict, h]
  cases tok <;>
    first | exact absurd rfl (hne1 _) | exact absurd rfl (hne2 _) | rfl

theorem monoApp : ∀ f : Nat,
    (∀ f' ty s v s1 e, f ≤ f' → parse f ty s = .ok (v, s1) →
        parse f' ty (appendToks s e) = .ok (v, appendToks s1 e)) ∧
    (∀ f' t s acc v s1 e, f ≤ f' → parseElems f t s acc = .ok (v, s1) →
        parseElems f' t (appendToks s e) acc = .ok (v, appendToks s1 e)) ∧
    (∀ f' t s acc v s1 e, f ≤ f' → parseDict f t s acc = .ok (v, s1) →
        parseDict f' t (appendToks s e) acc = .ok (v, appendToks s1 e)) ∧
    (∀ f' fs st s s1 st' e, f ≤ f' → parseObject f fs st s = (.ok s1, st') →
        parseObject f' fs st (appendToks s e) = (.ok (appendToks s1 e), st')) ∧
    (∀ f' fs st s s1 st' e, f ≤ f' → parseObjLoop f fs st s = (.ok s1, st') →
        parseObjLoop f' fs st (appendToks s e) = (.ok (appendToks s1 e), st')) ∧
    (∀ f' t s acc v s1 e, f ≤ f' → parseSetElems f t s acc = .ok (v, s1) →
        parseSetElems f' t (appendToks s e) acc = .ok (v, appendToks s1 e)) ∧
    (∀ f' t s acc v s1 e, f ≤ f' → parseUSetElems f t s acc = .ok (v, s1) →
        parseUSetElems f' t (appendToks s e) acc = .ok (v, appendToks s1 e)) ∧
    (∀ f' t s acc v s1 e, f ≤ f' → parseUDict f t s acc = .ok (v, s1) →
        parseUDict f' t (appendToks s e) acc = .ok (v, appendToks s1 e)) := by
  intro f
  induction f with
  | zero =>
    refine ⟨fun f' ty s v s1 e _ h => ?_, fun f' t s acc v s1 e _ h => ?_,
      fun f' t s acc v s1 e _ h => ?_, fun f' fs st s s1 st' e _ h => ?_,
      fun f' fs st s s1 st' e _ h => ?_, fun f' t s acc v s1 e _ h => ?_,
      fun f' t s acc v s1 e _ h => ?_, fun f' t s acc v s1 e _ h => ?_⟩ <;>
      simp [parse, parseElems, parseDict, parseObject, parseObjLoop,
        parseSetElems, parseUSetElems, parseUDict, fuelError] at h
  | succ f ih =>
    obtain ⟨ihP, ihE, ihD, ihO, ihL, ihS, ihU, ihM⟩ := ih
    refine ⟨?_, ?_, ?_, ?_, ?_, ?_, ?_, ?_⟩
    · -- parse
      intro f' ty s v s1 e hf h
      obtain ⟨f'', rfl⟩ : ∃ g, f' = g + 1 := ⟨f' - 1, by omega⟩
      have hf2 : f ≤ f'' := by omega
      cases ty with
      | jbool =>
        rw [parse_jbool_succ] at h ⊢
        exact parseScalar_append h e
      | jint k =>
        rw [parse_jint_succ] at h ⊢
        exact parseScalar_append h e
      | jstr =>
        rw [parse_jstr_succ] at h ⊢
        exact parseScalar_append h e
      | jopt t =>
        rcases hp : TokenStream.peek s with ⟨o, s2⟩
        cases o with
        | none =>
          rw [parse_jopt_none f t hp] at h
          exact Except.noConfusion h
        | some tok =>
          by_cases hnn : tok = Token.null
          · subst hnn
            rw [parse_jopt_null f t hp] at h
            injection h with h1
            injection h1 with ha hb
            subst ha
            subst hb
            rw [parse_jopt_null f'' t (peek_appendToks hp e)]
            rw [next_snd_cached_append (peek_cached hp) e]
          · rw [parse_jopt_step f t hp hnn] at h
            rw [parse_jopt_step f'' t (peek_appendToks hp e) hnn]
            rcases hrec : parse f t s2 with err | ⟨w, s'⟩
            · rw [hrec] at h
              exact Except.noConfusion h
            · rw [hrec] at h
              injection h with h1
              injection h1 with ha hb
              subst ha
              subst hb
              rw [ihP f'' t s2 w s' e hf2 hrec]
      | jarr t =>
        rcases hn : TokenStream.next s with ⟨o, s2⟩
        cases o with
        | none =>
          rw [parse_jarr_none f t hn] at h
          exact Except.noConfusion h
        | some tok =>
          by_cases hsa : tok = Token.startArray
          · subst hsa
            rw [parse_jarr_start f t hn] at h
            rw [parse_jarr_start f'' t (next_appendToks hn e)]
            exact ihE f'' t s2 [] v s1 e hf2 h
          · rw [parse_jarr_mismatch f t hn hsa] at h
            exact Except.noConfusion h
      | jset t =>
        rcases hn : TokenStream.next s with ⟨o, s2⟩
        cases o with
        | none =>
          rw [parse_jset_none f t hn] at h
          exact Except.noConfusion h
        | some tok =>
          by_cases hsa : tok = Token.startArray
          · subst hsa
            rw [parse_jset_start f t hn] at h
            rw [parse_jset_start f'' t (next_appendToks hn e)]
            exact ihS f'' t s2 [] v s1 e hf2 h
          · rw [parse_jset_mismatch f t hn hsa] at h
            exact Except.noConfusion h
      | juset t =>
        rcases hn : TokenStream.next s with ⟨o, s2⟩
        cases o with
        | none =>
          rw [parse_juset_none f t hn] at h
          exact Except.noConfusion h
        | some tok =>
          by_cases hsa : tok = Token.startArray
          · subst hsa
            rw [parse_juset_start f t hn] at h
            rw [parse_juset_start f'' t (next_appendToks hn e)]
            exact ihU f'' t s2 [] v s1 e hf2 h
          · rw [parse_juset_mismatch f t hn hsa] at h
            exact Except.noConfusion h
      | jdict t =>
        rcases hn : TokenStream.next s with ⟨o, s2⟩
        cases o with
        | none =>
          rw [parse_jdict_none f t hn] at h
          exact Except.noConfusion h
        | some tok =>
          by_cases hso : tok = Token.startObject
          · subst hso
            rw [parse_jdict_start f t hn] at h
            rw [parse_jdict_start f'' t (next_appendToks hn e)]
            exact ihD f'' t s2 [] v s1 e hf2 h
          · rw [parse_jdict_mismatch f t hn hso] at h
            exact Except.noConfusion h
      | judict t =>
        rcases hn : TokenStream.next s with ⟨o, s2⟩
        cases o with
        | none =>
          rw [parse_judict_none f t hn] at h
          exact Except.noConfusion h
        | some tok =>
          by_cases hso : tok = Token.startObject
          · subst hso
            rw [parse_judict_start f t hn] at h
            rw [parse_judict_start f'' t (next_appendToks hn e)]
            exact ihM f'' t s2 [] v s1 e hf2 h
          · rw [parse_judict_mismatch f t hn hso] at h
            exact Except.noConfusion h
      | jrec fs =>
        rcases ho : parseObject f fs ((defaultsOf fs).map (fun v => (v, false))) s
          with ⟨res, st'⟩
        rw [parse_jrec_step f fs ho] at h
        cases res with
        | error err => exact Except.noConfusion h
        | ok s' =>
          injection h with h1
          injection h1 with ha hb
          subst ha
          subst hb
          rw [parse_jrec_step f'' fs
            (ihO f'' fs ((defaultsOf fs).map (fun v => (v, false))) s s' st' e hf2 ho)]
    · -- parseElems
      intro f' t s acc v s1 e hf h
      obtain ⟨f'', rfl⟩ : ∃ g, f' = g + 1 := ⟨f' - 1, by omega⟩
      have hf2 : f ≤ f'' := by omega
      rcases hp : TokenStream.peek s with ⟨o, s2⟩
      cases o with
      | none =>
        rw [parseElems_none f t acc hp] at h
        exact Except.noConfusion h
      | some tok =>
        by_cases hea : ∃ n, tok = Token.endArray n
        · obtain ⟨n, rfl⟩ := hea
          rw [parseElems_end f t acc hp] at h
          injection h with h1
          injection h1 with ha hb
          subst ha
          subst hb
          rw [parseElems_end f'' t acc (peek_appendToks hp e)]
          rw [next_snd_cached_append (peek_cached hp) e]
        · have hne : ∀ n, tok ≠ Token.endArray n := fun n hc => hea ⟨n, hc⟩
          rw [parseElems_step f t acc hp hne] at h
          rw [parseElems_step f'' t acc (peek_appendToks hp e) hne]
          rcases hrec : parse f t s2 with err | ⟨w, s'⟩
          · rw [hrec] at h
            exact Except.noConfusion h
          · rw [hrec] at h
            rw [ihP f'' t s2 w s' e hf2 hrec]
            exact ihE f'' t s' (acc ++ [w]) v s1 e hf2 h
    · -- parseDict
      intro f' t s acc v s1 e hf h
      obtain ⟨f'', rfl⟩ : ∃ g, f' = g + 1 := ⟨f' - 1, by omega⟩
      have hf2 : f ≤ f'' := by omega
      rcases hn : TokenStream.next s with ⟨o, s2⟩
      cases o with
      | none =>
        rw [parseDict_none f t acc hn] at h
        exact Except.noConfusion h
      | some tok =>
        by_cases heo : ∃ n, tok = Token.endObject n
        · obtain ⟨n, rfl⟩ := heo
          rw [parseDict_end f t acc hn] at h
          injection h with h1
          injection h1 with ha hb
          subst ha
          subst hb
          rw [parseDict_end f'' t acc (next_appendToks hn e)]
        · by_cases hk : ∃ k, tok = Token.key k
          · obtain ⟨k, rfl⟩ := hk
            rw [parseDict_key f t acc hn] at h
            rw [parseDict_key f'' t acc (next_appendToks hn e)]
            rcases hrec : parse f t s2 with err | ⟨w, s'⟩
            · rw [hrec] at h
              exact Except.noConfusion h
            · rw [hrec] at h
              rw [ihP f'' t s2 w s' e hf2 hrec]
              exact ihD f'' t s' (dictInsert k w acc) v s1 e hf2 h
          · have hne1 : ∀ n, tok ≠ Token.endObject n := fun n hc => heo ⟨n, hc⟩
            have hne2 : ∀ k, tok ≠ Token.key k := fun k hc => hk ⟨k, hc⟩
            rw [parseDict_mismatch f t acc hn hne1 hne2] at h
            exact Except.noConfusion h
    · -- parseObject
      intro f' fs st s s1 st' e hf h
      obtain ⟨f'', rfl⟩ : ∃ g, f' = g + 1 := ⟨f' - 1, by omega⟩
      have hf2 : f ≤ f'' := by omega
      rcases hn : TokenStream.next s with ⟨o, s2⟩
      cases o with
      | none =>
        rw [parseObject_none f fs st hn] at h
        injection h with h1 h2
        exact Except.noConfusion h1
      | some tok =>
        by_cases hso : tok = Token.startObject
        · subst hso
          rw [parseObject_start f fs st hn] at h
          rw [parseObject_start f'' fs st (next_appendToks hn e)]
          exact ihL f'' fs st s2 s1 st' e hf2 h
        · rw [parseObject_mismatch f fs st hn hso] at h
          injection h with h1 h2
          exact Except.noConfusion h1
    · -- parseObjLoop
      intro f' fs st s s1 st' e hf h
      obtain ⟨f'', rfl⟩ : ∃ g, f' = g + 1 := ⟨f' - 1, by omega⟩
      have hf2 : f ≤ f'' := by omega
      rcases hn : TokenStream.next s with ⟨o, s2⟩
      cases o with
      | none =>
        rw [parseObjLoop_none f fs st hn] at h
        injection h with h1 h2
        exact Except.noConfusion h1
      | some tok =>
        by_cases heo : ∃ n, tok = Token.endObject n
        · obtain ⟨n, rfl⟩ := heo
          rw [parseObjLoop_end f fs st hn] at h
          rw [parseObjLoop_end f'' fs st (next_appendToks hn e)]
          by_cases hr : allReady fs st
          · rw [if_pos hr] at h
            rw [if_pos hr]
            injection h with h1 h2
            injection h1 with ha
            subst ha
            subst h2
            rfl
          · rw [if_neg hr] at h
            injection h with h1 h2
            exact Except.noConfusion h1
        · by_cases hk : ∃ k, tok = Token.key k
          · obtain ⟨k, rfl⟩ := hk
            rcases hlk : mapLookup k (buildFieldsMap fs) with _ | i
            · rw [parseObjLoop_unknown_key f fs st hn hlk] at h
              injection h with h1 h2
              exact Except.noConfusion h1
            · rcases hfi : fs[i]? with _ | ⟨nm, ft⟩
              · rw [parseObjLoop] at h
                rw [hn] at h
                simp only [hlk, List.get?_eq_getElem?, hfi] at h
                rcases hsi : st[i]? with _ | q <;> simp [hsi] at h
              · rcases hsi : st[i]? with _ | ⟨w, b⟩
                · rw [parseObjLoop] at h
                  rw [hn] at h
                  simp only [hlk, List.get?_eq_getElem?, hfi, hsi] at h
                  injection h with h1 h2
                  exact Except.noConfusion h1
                · rw [parseObjLoop_key f fs st hn hlk hfi hsi] at h
                  rw [parseObjLoop_key f'' fs st (next_appendToks hn e) hlk hfi hsi]
                  cases b with
                  | true =>
                    rw [if_pos rfl] at h
                    injection h with h1 h2
                    exact Except.noConfusion h1
                  | false =>
                    rw [if_neg (by simp)] at h
                    rw [if_neg (by simp)]
                    rcases hrec : parse f ft s2 with err | ⟨w', s'⟩
                    · rw [hrec] at h
                      injection h with h1 h2
                      exact Except.noConfusion h1
                    · rw [hrec] at h
                      rw [ihP f'' ft s2 w' s' e hf2 hrec]
                      exact ihL f'' fs (st.set i (w', true)) s' s1 st' e hf2 h
          · have hne1 : ∀ n, tok ≠ Token.endObject n := fun n hc => heo ⟨n, hc⟩
            have hne2 : ∀ k2, tok ≠ Token.key k2 := fun k2 hc => hk ⟨k2, hc⟩
            rw [parseObjLoop_mismatch f fs st hn hne1 hne2] at h
            injection h with h1 h2
            exact Except.noConfusion h1
    · -- parseSetElems
      intro f' t s acc v s1 e hf h
      obtain ⟨f'', rfl⟩ : ∃ g, f' = g + 1 := ⟨f' - 1, by omega⟩
      have hf2 : f ≤ f'' := by omega
      rcases hp : TokenStream.peek s with ⟨o, s2⟩
      cases o with
      | none =>
        rw [parseSetElems_none f t acc hp] at h
        exact Except.noConfusion h
      | some tok =>
        by_cases hea : ∃ n, tok = Token.endArray n
        · obtain ⟨n, rfl⟩ := hea
          rw [parseSetElems_end f t acc hp] at h
          injection h with h1
          injection h1 with ha hb
          subst ha
          subst hb
          rw [parseSetElems_end f'' t acc (peek_appendToks hp e)]
          rw [next_snd_cached_append (peek_cached hp) e]
        · have hne : ∀ n, tok ≠ Token.endArray n := fun n hc => hea ⟨n, hc⟩
          rw [parseSetElems_step f t acc hp hne] at h
          rw [parseSetElems_step f'' t acc (peek_appendToks hp e) hne]
          rcases hrec : parse f t s2 with err | ⟨w, s'⟩
          · rw [hrec] at h
            exact Except.noConfusion h
          · rw [hrec] at h
            rw [ihP f'' t s2 w s' e hf2 hrec]
            exact ihS f'' t s' (setInsert w acc) v s1 e hf2 h
    · -- parseUSetElems
      intro f' t s acc v s1 e hf h
      obtain ⟨f'', rfl⟩ : ∃ g, f' = g + 1 := ⟨f' - 1, by omega⟩
      have hf2 : f ≤ f'' := by omega
      rcases hp : TokenStream.peek s with ⟨o, s2⟩
      cases o with
      | none =>
        rw [parseUSetElems_none f t acc hp] at h
        exact Except.noConfusion h
      | some tok =>
        by_cases hea : ∃ n, tok = Token.endArray n
        · obtain ⟨n, rfl⟩ := hea
          rw [parseUSetElems_end f t acc hp] at h
          injection h with h1
          injection h1 with ha hb
          subst ha
          subst hb
          rw [parseUSetElems_end f'' t acc (peek_appendToks hp e)]
          rw [next_snd_cached_append (peek_cached hp) e]
        · have hne : ∀ n, tok ≠ Token.endArray n := fun n hc => hea ⟨n, hc⟩
          rw [parseUSetElems_step f t acc hp hne] at h
          rw [parseUSetElems_step f'' t acc (peek_appendToks hp e) hne]
          rcases hrec : parse f t s2 with err | ⟨w, s'⟩
          · rw [hrec] at h
            exact Except.noConfusion h
          · rw [hrec] at h
            rw [ihP f'' t s2 w s' e hf2 hrec]
            exact ihU f'' t s' (usetInsert w acc) v s1 e hf2 h
    · -- parseUDict
      intro f' t s acc v s1 e hf h
      obtain ⟨f'', rfl⟩ : ∃ g, f' = g + 1 := ⟨f' - 1, by omega⟩
      have hf2 : f ≤ f'' := by omega
      rcases hn : TokenStream.next s with ⟨o, s2⟩
      cases o with
      | none =>
        rw [parseUDict_none f t acc hn] at h
        exact Except.noConfusion h
      | some tok =>
        by_cases heo : ∃ n, tok = Token.endObject n
        · obtain ⟨n, rfl⟩ := heo
          rw [parseUDict_end f t acc hn] at h
          injection h with h1
          injection h1 with ha hb
          subst ha
          subst hb
          rw [parseUDict_end f'' t acc (next_appendToks hn e)]
        · by_cases hk : ∃ k, tok = Token.key k
          · obtain ⟨k, rfl⟩ := hk
            rw [parseUDict_key f t acc hn] at h
            rw [parseUDict_key f'' t acc (next_appendToks hn e)]
            rcases hrec : parse f t s2 with err | ⟨w, s'⟩
            · rw [hrec] at h
              exact Except.noConfusion h
            · rw [hrec] at h
              rw [ihP f'' t s2 w s' e hf2 hrec]
              exact ihM f'' t s' (udictInsert k w acc) v s1 e hf2 h
          · have hne1 : ∀ n, tok ≠ Token.endObject n := fun n hc => heo ⟨n, hc⟩
            have hne2 : ∀ k, tok ≠ Token.key k := fun k hc => hk ⟨k, hc⟩
            rw [parseUDict_mismatch f t acc hn hne1 hne2] at h
            exact Except.noConfusion h

/-! ### Stream, ordering, field-table and writer lemmas for the
round-trip development -/

theorem pending_mk (l : List Token) (fin : Except String Unit)
    (p : List PathComp) :
    TokenStream.pending ⟨l, fin, none, none, p⟩ = l := rfl

theorem next_pending {s : TokenStream} {t : Token} {l : List Token}
    (he : s.error = none) (hp : TokenStream.pending s = t :: l) :
    ∃ p2, s.next = (some t, ⟨l, s.fin, none, none, p2⟩) := by
  obtain ⟨toks, fin, cached, error, path⟩ := s
  subst he
  cases cached with
  | some c =>
    simp only [TokenStream.pending] at hp
    injection hp with h1 h2
    subst h1
    subst h2
    exact ⟨path, by simp [TokenStream.next, TokenStream.acquireToken,
      TokenStream.hasError, TokenStream.isComplete]⟩
  | none =>
    simp only [TokenStream.pending] at hp
    subst hp
    exact ⟨onAdvance path t, by simp [TokenStream.next, TokenStream.acquireToken,
      TokenStream.hasError, TokenStream.isComplete, TokenStream.advance]⟩

theorem peek_pending {s : TokenStream} {t : Token} {l : List Token}
    (he : s.error = none) (hp : TokenStream.pending s = t :: l) :
    ∃ p2, s.peek = (some t, ⟨l, s.fin, some t, none, p2⟩) := by
  obtain ⟨toks, fin, cached, error, path⟩ := s
  subst he
  cases cached with
  | some c =>
    simp only [TokenStream.pending] at hp
    injection hp with h1 h2
    subst h1
    subst h2
    exact ⟨path, by simp [TokenStream.peek, TokenStream.acquireToken,
      TokenStream.hasError, TokenStream.isComplete]⟩
  | none =>
    simp only [TokenStream.pending] at hp
    subst hp
    exact ⟨onAdvance path t, by simp [TokenStream.peek, TokenStream.acquireToken,
      TokenStream.hasError, TokenStream.isComplete, TokenStream.advance]⟩

theorem next_cached_mk (l : List Token) (fin : Except String Unit) (t : Token)
    (p : List PathComp) :
    TokenStream.next ⟨l, fin, some t, none, p⟩ = (some t, ⟨l, fin, none, none, p⟩) := by
  simp [TokenStream.next, TokenStream.acquireToken, TokenStream.hasError,
    TokenStream.isComplete]

theorem strLtL_trans {a b c : List Char} (h1 : strLtL a b = true)
    (h2 : strLtL b c = true) : strLtL a c = true := by
  induction a generalizing b c with
  | nil => cases b <;> cases c <;> simp_all [strLtL]
  | cons x as ih =>
    cases b with
    | nil => simp [strLtL] at h1
    | cons y bs =>
      cases c with
      | nil => simp [strLtL] at h2
      | cons z cs =>
        simp only [strLtL, Bool.or_eq_true, Bool.and_eq_true,
          decide_eq_true_eq, charLt] at *
        rcases h1 with h1 | ⟨rfl, h1⟩ <;> rcases h2 with h2 | ⟨rfl, h2⟩
        · exact Or.inl (Nat.lt_trans h1 h2)
        · exact Or.inl h1
        · exact Or.inl h2
        · exact Or.inr ⟨rfl, ih h1 h2⟩

theorem strLt_trans {a b c : String} (h1 : strLt a b = true)
    (h2 : strLt b c = true) : strLt a c = true :=
  strLtL_trans h1 h2

theorem strLtL_irrefl (a : List Char) : strLtL a a = false := by
  induction a with
  | nil => rfl
  | cons x as ih => simp [strLtL, charLt, ih]

theorem strLt_irrefl (a : String) : strLt a a = false := strLtL_irrefl a.data

theorem strLtL_asymm {a b : List Char} (h : strLtL a b = true) :
    strLtL b a = false := by
  induction a generalizing b with
  | nil => cases b <;> simp_all [strLtL]
  | cons x as ih =>
    cases b with
    | nil => simp [strLtL] at h
    | cons y bs =>
      simp only [strLtL, Bool.or_eq_true, Bool.and_eq_true, decide_eq_true_eq,
        charLt, Bool.or_eq_false_iff, Bool.and_eq_false_iff] at *
      rcases h with h | ⟨rfl, h⟩
      · constructor
        · simp only [decide_eq_false_iff_not]
          omega
        · left
          simp only [decide_eq_false_iff_not]
          rintro rfl
          omega
      · constructor
        · simp only [decide_eq_false_iff_not]
          omega
        · right
          exact ih h

theorem strLt_asymm {a b : String} (h : strLt a b = true) :
    strLt b a = false := strLtL_asymm h

theorem strLt_ne {a b : String} (h : strLt a b = true) : a ≠ b := by
  intro hab
  subst hab
  rw [strLt_irrefl] at h
  exact Bool.noConfusion h

theorem dictInsert_append {k : String} {w : JVal} {acc : List (String × JVal)}
    (h : ∀ k' ∈ acc.map Prod.fst, strLt k' k = true) :
    dictInsert k w acc = acc ++ [(k, w)] := by
  induction acc with
  | nil => rfl
  | cons q acc' ih =>
    obtain ⟨k', w'⟩ := q
    have hk' : strLt k' k = true := h k' (by simp)
    rw [dictInsert]
    rw [if_neg (by rw [strLt_asymm hk']; exact Bool.false_ne_true)]
    rw [if_neg (Ne.symm (strLt_ne hk'))]
    rw [ih (fun k2 hk2 => h k2 (by simp [hk2]))]
    rfl

theorem strictSorted_cons {a : String} {l : List String}
    (h : strictSorted (a :: l) = true) :
    strictSorted l = true ∧ ∀ b ∈ l, strLt a b = true := by
  induction l generalizing a with
  | nil => exact ⟨rfl, by simp⟩
  | cons b l' ih =>
    rw [strictSorted, Bool.and_eq_true] at h
    obtain ⟨hab, hrest⟩ := h
    obtain ⟨hs, hall⟩ := ih hrest
    exact ⟨hrest, by
      intro c hc
      rcases hc with _ | hc
      · exact hab
      · exact strLt_trans hab (hall c (by assumption))⟩

theorem strictSorted_split {xs : List String} {y : String} {ys : List String}
    (h : strictSorted (xs ++ y :: ys) = true) :
    (∀ x ∈ xs, strLt x y = true) ∧ strictSorted (y :: ys) = true := by
  induction xs with
  | nil => exact ⟨by simp, h⟩
  | cons x xs' ih =>
    rw [List.cons_append] at h
    obtain ⟨hs, hall⟩ := strictSorted_cons h
    obtain ⟨ih1, ih2⟩ := ih hs
    refine ⟨?_, ih2⟩
    intro z hz
    rcases hz with _ | hz
    · exact hall y (by simp)
    · exact ih1 z (by assumption)

theorem mapLookup_insert_self (m : List (String × Nat)) (k : String) (i : Nat) :
    mapLookup k (mapInsert m k i) = some i := by
  simp [mapInsert, mapLookup]

theorem mapLookup_insert_other (m : List (String × Nat)) {k k' : String}
    (i : Nat) (h : k ≠ k') : mapLookup k (mapInsert m k' i) = mapLookup k m := by
  simp [mapInsert, mapLookup, h]

theorem mapLookup_buildAux_notin (fs : List (String × JTy)) (k : String)
    (hne : ∀ p ∈ fs, Prod.fst p ≠ k) :
    ∀ (i1 : Nat) (m1 : List (String × Nat)),
      mapLookup k (buildFieldsMapAux i1 fs m1) = mapLookup k m1 := by
  induction fs with
  | nil => intro i1 m1; rfl
  | cons q fs' ih =>
    intro i1 m1
    obtain ⟨nm2, ft2⟩ := q
    rw [buildFieldsMapAux]
    rw [ih (fun p hp => hne p (by simp [hp])) _ _]
    exact mapLookup_insert_other m1 i1 (Ne.symm (hne (nm2, ft2) (by simp)))

theorem mapLookup_buildAux (fs : List (String × JTy)) :
    ∀ (i0 : Nat) (m : List (String × Nat)) (j : Nat) (nm : String) (ft : JTy),
    (fs.map Prod.fst).Nodup →
    fs[j]? = some (nm, ft) →
    mapLookup nm (buildFieldsMapAux i0 fs m) = some (i0 + j) := by
  induction fs with
  | nil => intro i0 m j nm ft _ hj; simp at hj
  | cons q fs' ih =>
    intro i0 m j nm ft hnd hj
    obtain ⟨nm0, ft0⟩ := q
    rw [List.map_cons, List.nodup_cons] at hnd
    obtain ⟨hnotin, hnd'⟩ := hnd
    rw [buildFieldsMapAux]
    cases j with
    | zero =>
      simp only [List.getElem?_cons_zero] at hj
      injection hj with hj
      injection hj with h1 h2
      subst h1
      rw [mapLookup_buildAux_notin fs' nm0
        (fun p hp hc => hnotin (List.mem_map.mpr ⟨p, hp, hc⟩)) _ _]
      rw [mapLookup_insert_self]
      simp
    | succ j' =>
      simp only [List.getElem?_cons_succ] at hj
      rw [ih i0.succ (mapInsert m nm0 i0) j' nm ft hnd' hj]
      congr 1
      omega

theorem mapLookup_buildFieldsMap {fs : List (String × JTy)} {j : Nat}
    {nm : String} {ft : JTy} (hnd : (fs.map Prod.fst).Nodup)
    (hj : fs[j]? = some (nm, ft)) :
    mapLookup nm (buildFieldsMap fs) = some j := by
  have := mapLookup_buildAux fs 0 [] j nm ft hnd hj
  simpa using this

theorem defaultsOf_eq_map (fs : List (String × JTy)) :
    defaultsOf fs = fs.map (fun p => p.2.defaultVal) := by
  induction fs with
  | nil => rfl
  | cons q fs' ih =>
    obtain ⟨nm, t⟩ := q
    rw [defaultsOf, ih]
    rfl

theorem fieldsDepth_ge {nm : String} {ft : JTy} {fs : List (String × JTy)}
    (h : (nm, ft) ∈ fs) : ft.depth ≤ fieldsDepth fs := by
  induction fs with
  | nil => simp at h
  | cons q fs' ih =>
    obtain ⟨nm2, ft2⟩ := q
    rw [fieldsDepth]
    rcases h with _ | h
    · exact le_max_left _ _
    · exact le_trans (ih (by assumption)) (le_max_right _ _)

theorem set_append_length {α : Type} (A : List α) (b : α) (B : List α) (x : α) :
    (A ++ b :: B).set A.length x = A ++ x :: B := by
  induction A with
  | nil => rfl
  | cons a A' ih => simp [List.set, ih]

theorem allReady_all_set {fs : List (String × JTy)} {st : List (JVal × Bool)}
    (h : ∀ q ∈ st, q.2 = true) : allReady fs st = true := by
  rw [allReady, List.all_eq_true]
  intro q hq
  have := h q.2 (List.of_mem_zip hq).2
  simp [this]

theorem writerInteger_isNum (srcTy : IntTy) (n : Int) :
    ∃ tt, writerInteger srcTy n = .num tt n := by
  unfold writerInteger
  split <;> split <;> exact ⟨_, rfl⟩

theorem writerInteger_ranged {srcTy : IntTy} {n : Int}
    (hlo : srcTy.minVal ≤ n) (hhi : n ≤ srcTy.maxVal)
    (hmin : -(2 ^ 63) ≤ srcTy.minVal) (hmax : srcTy.maxVal ≤ 2 ^ 64 - 1) :
    ∃ tt, writerInteger srcTy n = .num tt n ∧ tt.minVal ≤ n ∧ n ≤ tt.maxVal := by
  have hu := in_range_iff u32ty srcTy n hlo hhi
  have hi := in_range_iff i32ty srcTy n hlo hhi
  have humin : u32ty.minVal = 0 := by decide
  have humax : u32ty.maxVal = 4294967295 := by decide
  have himin : i32ty.minVal = -2147483648 := by decide
  have himax : i32ty.maxVal = 2147483647 := by decide
  have hu64min : u64ty.minVal = 0 := by decide
  have hu64max : u64ty.maxVal = 18446744073709551615 := by decide
  have hi64min : i64ty.minVal = -9223372036854775808 := by decide
  have hi64max : i64ty.maxVal = 9223372036854775807 := by decide
  have hp63 : ((2 : Int) ^ 63) = 9223372036854775808 := by norm_num
  have hp64 : ((2 : Int) ^ 64) = 18446744073709551616 := by norm_num
  rw [hp63] at hmin
  rw [hp64] at hmax
  rw [humin, humax] at hu
  rw [himin, himax] at hi
  unfold writerInteger
  by_cases hpos : 0 < n
  · rw [if_pos hpos]
    by_cases h32 : n ≤ 4294967295
    · rw [if_pos (hu.mpr ⟨by omega, h32⟩)]
      exact ⟨u32ty, rfl, by rw [humin]; omega, by rw [humax]; omega⟩
    · have hfalse : in_range u32ty srcTy n = false := by
        rcases hb : in_range u32ty srcTy n
        · rfl
        · exact absurd (hu.mp hb).2 h32
      rw [hfalse]
      simp only [Bool.false_eq_true, if_false]
      exact ⟨u64ty, rfl, by rw [hu64min]; omega, by rw [hu64max]; omega⟩
  · rw [if_neg hpos]
    by_cases h32 : -2147483648 ≤ n
    · rw [if_pos (hi.mpr ⟨h32, by omega⟩)]
      exact ⟨i32ty, rfl, by rw [himin]; omega, by rw [himax]; omega⟩
    · have hfalse : in_range i32ty srcTy n = false := by
        rcases hb : in_range i32ty srcTy n
        · rfl
        · exact absurd (hi.mp hb).1 h32
      rw [hfalse]
      simp only [Bool.false_eq_true, if_false]
      exact ⟨i64ty, rfl, by rw [hi64min]; omega, by rw [hi64max]; omega⟩

theorem isNotNone_ne {w : JVal} (h : isNotNone w = true) : w ≠ .vnone := by
  cases w <;> simp [isNotNone] at h ⊢

theorem dump_head : ∀ (v : JVal) (ty : JTy), hasTy v ty = true →
    ∃ tok l, dump ty v = tok :: l ∧ (∀ n, tok ≠ .endArray n) ∧
      (noSomeNone v = true → v ≠ .vnone → tok ≠ .null)
  | .vbool b, ty, h => by
    cases ty <;> simp [hasTy] at h
    exact ⟨.bool b, [], rfl, (fun n hc => Token.noConfusion hc), (fun _ _ hc => Token.noConfusion hc)⟩
  | .vint n, ty, h => by
    cases ty <;> simp [hasTy] at h
    case jint k =>
      obtain ⟨tt, htt⟩ := writerInteger_isNum k.ty n
      exact ⟨.num tt n, [], by rw [dump, htt],
        (fun n2 hc => Token.noConfusion hc), (fun _ _ hc => Token.noConfusion hc)⟩
  | .vstr s, ty, h => by
    cases ty <;> simp [hasTy] at h
    exact ⟨.str s, [], rfl, (fun n hc => Token.noConfusion hc), (fun _ _ hc => Token.noConfusion hc)⟩
  | .vnone, ty, h => by
    cases ty <;> simp [hasTy] at h
    exact ⟨.null, [], rfl, (fun n hc => Token.noConfusion hc),
      (fun _ hne => absurd rfl hne)⟩
  | .vsome w, ty, h => by
    cases ty
    case jopt t =>
      obtain ⟨tok, l, hd, hea, hnull⟩ := dump_head w t h
      refine ⟨tok, l, by rw [dump, hd], hea, ?_⟩
      intro hnsn _
      simp only [noSomeNone, Bool.and_eq_true] at hnsn
      exact hnull hnsn.2 (isNotNone_ne hnsn.1)
    all_goals simp [hasTy] at h
  | .varr vs, ty, h => by
    cases ty
    all_goals simp [hasTy] at h
    all_goals exact ⟨.startArray, _, rfl, (fun n hc => Token.noConfusion hc),
      (fun _ _ hc => Token.noConfusion hc)⟩
  | .vdict es, ty, h => by
    cases ty
    all_goals simp [hasTy] at h
    all_goals exact ⟨.startObject, _, rfl, (fun n hc => Token.noConfusion hc),
      (fun _ _ hc => Token.noConfusion hc)⟩
  | .vrec vs, ty, h => by
    cases ty
    all_goals simp [hasTy] at h
    all_goals exact ⟨.startObject, _, rfl, (fun n hc => Token.noConfusion hc),
      (fun _ _ hc => Token.noConfusion hc)⟩
termination_by structural v => v

/-! ### The value order (std operator<) and its strict-order laws -/

mutual
theorem jvalLt_irrefl : ∀ a, jvalLt a a = false
  | .vbool b => by simp [jvalLt]
  | .vint n => by simp [jvalLt]
  | .vstr s2 => strLt_irrefl s2
  | .vnone => rfl
  | .vsome a => jvalLt_irrefl a
  | .varr l => jvalLtList_irrefl l
  | .vdict l => jvalLtEntries_irrefl l
  | .vrec l => jvalLtList_irrefl l
termination_by structural a => a
theorem jvalLtList_irrefl : ∀ l, jvalLtList l l = false
  | [] => rfl
  | a :: as => by
    simp [jvalLtList, jvalLt_irrefl a, jvalLtList_irrefl as]
termination_by structural l => l
theorem jvalLtEntries_irrefl : ∀ l, jvalLtEntries l l = false
  | [] => rfl
  | (k, a) :: as => by
    simp [jvalLtEntries, strLt_irrefl, jvalLt_irrefl a,
      jvalLtEntries_irrefl as]
termination_by structural l => l
end

mutual
theorem jvalLt_asymm : ∀ a b, jvalLt a b = true → jvalLt b a = false
  | a, b => by
    cases a <;> cases b <;>
      (first
        | exact fun h => Bool.noConfusion h
        | exact fun _ => rfl
        | skip)
    case vbool.vbool x y => cases x <;> cases y <;> decide
    case vint.vint x y =>
      intro h
      have h1 : x < y := of_decide_eq_true h
      exact decide_eq_false (by omega)
    case vstr.vstr x y => exact fun h => strLt_asymm h
    case vsome.vsome x y => exact fun h => jvalLt_asymm x y h
    case varr.varr x y => exact fun h => jvalLtList_asymm x y h
    case vdict.vdict x y => exact fun h => jvalLtEntries_asymm x y h
    case vrec.vrec x y => exact fun h => jvalLtList_asymm x y h
termination_by structural a => a
theorem jvalLtList_asymm : ∀ l m, jvalLtList l m = true → jvalLtList m l = false
  | [], [] => fun h => Bool.noConfusion h
  | [], _ :: _ => fun _ => rfl
  | _ :: _, [] => fun h => Bool.noConfusion h
  | a :: as, b :: bs => by
    intro h
    simp only [jvalLtList, Bool.or_eq_true, Bool.and_eq_true] at h
    rcases h with h | ⟨hbeq, hrest⟩
    · have h1 : jvalLt b a = false := jvalLt_asymm a b h
      have h2 : jvalBEq b a = false := by
        rcases hb : jvalBEq b a
        · rfl
        · obtain rfl : b = a := (jvalBEq_iff b a).mp hb
          rw [jvalLt_irrefl] at h
          exact Bool.noConfusion h
      simp [jvalLtList, h1, h2]
    · obtain rfl : a = b := (jvalBEq_iff a b).mp hbeq
      have h2 : jvalLtList bs as = false := jvalLtList_asymm as bs hrest
      simp [jvalLtList, jvalLt_irrefl a, h2]
termination_by structural l => l
theorem jvalLtEntries_asymm :
    ∀ l m, jvalLtEntries l m = true → jvalLtEntries m l = false
  | [], [] => fun h => Bool.noConfusion h
  | [], _ :: _ => fun _ => rfl
  | _ :: _, [] => fun h => Bool.noConfusion h
  | (k, a) :: as, (k2, b) :: bs => by
    intro h
    simp only [jvalLtEntries, Bool.or_eq_true, Bool.and_eq_true,
      decide_eq_true_eq] at h
    rcases h with h | ⟨hk, h | ⟨hbeq, hrest⟩⟩
    · have h1 : strLt k2 k = false := strLt_asymm h
      have h2 : decide (k2 = k) = false := by
        rcases hb : decide (k2 = k)
        · rfl
        · obtain rfl : k2 = k := of_decide_eq_true hb
          rw [strLt_irrefl] at h
          exact Bool.noConfusion h
      simp [jvalLtEntries, h1, h2]
    · subst hk
      have h1 : jvalLt b a = false := jvalLt_asymm a b h
      have h2 : jvalBEq b a = false := by
        rcases hb : jvalBEq b a
        · rfl
        · obtain rfl : b = a := (jvalBEq_iff b a).mp hb
          rw [jvalLt_irrefl] at h
          exact Bool.noConfusion h
      simp [jvalLtEntries, strLt_irrefl, h1, h2]
    · subst hk
      obtain rfl : a = b := (jvalBEq_iff a b).mp hbeq
      have h2 : jvalLtEntries bs as = false := jvalLtEntries_asymm as bs hrest
      simp [jvalLtEntries, strLt_irrefl, jvalLt_irrefl a, h2]
termination_by structural l => l
end

mutual
theorem jvalLt_trans :
    ∀ a b c, jvalLt a b = true → jvalLt b c = true → jvalLt a c = true
  | a, b, c => by
    cases a <;> cases b <;> cases c <;>
      (first
        | exact fun h _ => Bool.noConfusion h
        | exact fun _ h => Bool.noConfusion h
        | exact fun _ _ => rfl
        | skip)
    case vbool.vbool.vbool x y z => cases x <;> cases y <;> cases z <;> decide
    case vint.vint.vint x y z =>
      intro h1 h2
      have hxy : x < y := of_decide_eq_true h1
      have hyz : y < z := of_decide_eq_true h2
      exact decide_eq_true (by omega)
    case vstr.vstr.vstr x y z => exact fun h1 h2 => strLt_trans h1 h2
    case vsome.vsome.vsome x y z => exact fun h1 h2 => jvalLt_trans x y z h1 h2
    case varr.varr.varr x y z =>
      exact fun h1 h2 => jvalLtList_trans x y z h1 h2
    case vdict.vdict.vdict x y z =>
      exact fun h1 h2 => jvalLtEntries_trans x y z h1 h2
    case vrec.vrec.vrec x y z =>
      exact fun h1 h2 => jvalLtList_trans x y z h1 h2
termination_by structural a => a
theorem jvalLtList_trans :
    ∀ l m o, jvalLtList l m = true → jvalLtList m o = true →
      jvalLtList l o = true
  | [], [], _ => fun h _ => Bool.noConfusion h
  | [], _ :: _, [] => fun _ h => Bool.noConfusion h
  | [], _ :: _, _ :: _ => fun _ _ => rfl
  | _ :: _, [], _ => fun h _ => Bool.noConfusion h
  | _ :: _, _ :: _, [] => fun _ h => Bool.noConfusion h
  | a :: as, b :: bs, c :: cs => by
    intro h1 h2
    simp only [jvalLtList, Bool.or_eq_true, Bool.and_eq_true] at h1 h2 ⊢
    rcases h1 with h1 | ⟨hb1, hr1⟩
    · rcases h2 with h2 | ⟨hb2, hr2⟩
      · exact Or.inl (jvalLt_trans a b c h1 h2)
      · obtain rfl : b = c := (jvalBEq_iff b c).mp hb2
        exact Or.inl h1
    · obtain rfl : a = b := (jvalBEq_iff a b).mp hb1
      rcases h2 with h2 | ⟨hb2, hr2⟩
      · exact Or.inl h2
      · obtain rfl : a = c := (jvalBEq_iff a c).mp hb2
        exact Or.inr ⟨(jvalBEq_iff a a).mpr rfl,
          jvalLtList_trans as bs cs hr1 hr2⟩
termination_by structural l => l
theorem jvalLtEntries_trans :
    ∀ l m o, jvalLtEntries l m = true → jvalLtEntries m o = true →
      jvalLtEntries l o = true
  | [], [], _ => fun h _ => Bool.noConfusion h
  | [], _ :: _, [] => fun _ h => Bool.noConfusion h
  | [], _ :: _, _ :: _ => fun _ _ => rfl
  | _ :: _, [], _ => fun h _ => Bool.noConfusion h
  | _ :: _, _ :: _, [] => fun _ h => Bool.noConfusion h
  | (k1, a) :: as, (k2, b) :: bs, (k3, c) :: cs => by
    intro h1 h2
    simp only [jvalLtEntries, Bool.or_eq_true, Bool.and_eq_true,
      decide_eq_true_eq] at h1 h2 ⊢
    rcases h1 with h1 | ⟨hk1, hv1⟩
    · rcases h2 with h2 | ⟨hk2, hv2⟩
      · exact Or.inl (strLt_trans h1 h2)
      · subst hk2
        exact Or.inl h1
    · subst hk1
      rcases h2 with h2 | ⟨hk2, hv2⟩
      · exact Or.inl h2
      · subst hk2
        refine Or.inr ⟨rfl, ?_⟩
        rcases hv1 with hv1 | ⟨hb1, hr1⟩
        · rcases hv2 with hv2 | ⟨hb2, hr2⟩
          · exact Or.inl (jvalLt_trans a b c hv1 hv2)
          · obtain rfl : b = c := (jvalBEq_iff b c).mp hb2
            exact Or.inl hv1
        · obtain rfl : a = b := (jvalBEq_iff a b).mp hb1
          rcases hv2 with hv2 | ⟨hb2, hr2⟩
          · exact Or.inl hv2
          · obtain rfl : a = c := (jvalBEq_iff a c).mp hb2
            exact Or.inr ⟨(jvalBEq_iff a a).mpr rfl,
              jvalLtEntries_trans as bs cs hr1 hr2⟩
termination_by structural l => l
end

theorem jvalLt_ne {a b : JVal} (h : jvalLt a b = true) : a ≠ b := by
  intro hab
  subst hab
  rw [jvalLt_irrefl] at h
  exact Bool.noConfusion h

theorem setInsert_append {v : JVal} {acc : List JVal}
    (h : ∀ w ∈ acc, jvalLt w v = true) :
    setInsert v acc = acc ++ [v] := by
  induction acc with
  | nil => rfl
  | cons w acc' ih =>
    have hw : jvalLt w v = true := h w (by simp)
    rw [setInsert]
    rw [if_neg (by rw [jvalLt_asymm w v hw]; exact Bool.false_ne_true)]
    rw [if_neg (Ne.symm (jvalLt_ne hw))]
    rw [ih (fun w2 hw2 => h w2 (by simp [hw2]))]
    rfl

theorem strictSortedVals_cons {a : JVal} {l : List JVal}
    (h : strictSortedVals (a :: l) = true) :
    strictSortedVals l = true ∧ ∀ b ∈ l, jvalLt a b = true := by
  induction l generalizing a with
  | nil => exact ⟨rfl, by simp⟩
  | cons b l2 ih =>
    rw [strictSortedVals, Bool.and_eq_true] at h
    obtain ⟨hab, hrest⟩ := h
    obtain ⟨hs, hall⟩ := ih hrest
    exact ⟨hrest, by
      intro c hc
      rcases hc with _ | hc
      · exact hab
      · exact jvalLt_trans a b c hab (hall c (by assumption))⟩

theorem strictSortedVals_split {xs : List JVal} {y : JVal} {ys : List JVal}
    (h : strictSortedVals (xs ++ y :: ys) = true) :
    (∀ x ∈ xs, jvalLt x y = true) ∧ strictSortedVals (y :: ys) = true := by
  induction xs with
  | nil => exact ⟨by simp, h⟩
  | cons x xs2 ih =>
    rw [List.cons_append] at h
    obtain ⟨hs, hall⟩ := strictSortedVals_cons h
    obtain ⟨ih1, ih2⟩ := ih hs
    refine ⟨?_, ih2⟩
    intro z hz
    rcases hz with _ | hz
    · exact hall y (by simp)
    · exact ih1 z (by assumption)

theorem usetInsert_not_mem {v : JVal} {acc : List JVal} (h : v ∉ acc) :
    usetInsert v acc = acc ++ [v] := by
  rw [usetInsert, if_neg h]

theorem udictInsert_not_mem {k : String} {v : JVal}
    {acc : List (String × JVal)} (h : k ∉ acc.map Prod.fst) :
    udictInsert k v acc = acc ++ [(k, v)] := by
  rw [udictInsert, if_neg h]

theorem nodup_append_cons_head {α : Type} {acc : List α} {v : α}
    {vs : List α} (h : (acc ++ v :: vs).Nodup) : v ∉ acc := by
  rw [List.nodup_append] at h
  intro hv
  exact h.2.2 hv (List.mem_cons_self v vs)

theorem roundtrip : ∀ f : Nat,
    (∀ ty v s rest, hasTy v ty = true → noSomeNone v = true →
      s.error = none → TokenStream.pending s = dump ty v ++ rest →
      (dump ty v).length + ty.depth < f →
      ∃ p', parse f ty s = .ok (v, ⟨rest, s.fin, none, none, p'⟩)) ∧
    (∀ t vs acc s rest n, hasTyList vs t = true → noSomeNoneList vs = true →
      s.error = none →
      TokenStream.pending s = dumpList t vs ++ .endArray n :: rest →
      (dumpList t vs).length + t.depth + 2 ≤ f →
      ∃ p', parseElems f t s acc
        = .ok (.varr (acc ++ vs), ⟨rest, s.fin, none, none, p'⟩)) ∧
    (∀ t es acc s rest n, hasTyEntries es t = true →
      noSomeNoneEntries es = true →
      strictSorted ((acc ++ es).map Prod.fst) = true →
      s.error = none →
      TokenStream.pending s = dumpEntries t es ++ .endObject n :: rest →
      (dumpEntries t es).length + t.depth + 2 ≤ f →
      ∃ p', parseDict f t s acc
        = .ok (.vdict (acc ++ es), ⟨rest, s.fin, none, none, p'⟩)) ∧
    (∀ fs vs s rest n, distinctNames fs = true → hasTyFields vs fs = true →
      noSomeNoneList vs = true → s.error = none →
      TokenStream.pending s
        = .startObject :: (dumpFields fs vs ++ .endObject n :: rest) →
      (dumpFields fs vs).length + fieldsDepth fs + 3 ≤ f →
      ∃ p', parseObject f fs ((defaultsOf fs).map (fun v => (v, false))) s
        = (.ok ⟨rest, s.fin, none, none, p'⟩, vs.map (fun v => (v, true)))) ∧
    (∀ fs done todo vsDone vsTodo s rest n,
      distinctNames fs = true → fs = done ++ todo →
      done.length = vsDone.length →
      hasTyFields vsTodo todo = true → noSomeNoneList vsTodo = true →
      s.error = none →
      TokenStream.pending s = dumpFields todo vsTodo ++ .endObject n :: rest →
      (dumpFields todo vsTodo).length + fieldsDepth fs + 2 ≤ f →
      ∃ p', parseObjLoop f fs
          (vsDone.map (fun v => (v, true))
            ++ todo.map (fun p => (p.2.defaultVal, false))) s
        = (.ok ⟨rest, s.fin, none, none, p'⟩,
            (vsDone ++ vsTodo).map (fun v => (v, true)))) ∧
    (∀ t vs acc s rest n, hasTyList vs t = true → noSomeNoneList vs = true →
      strictSortedVals (acc ++ vs) = true →
      s.error = none →
      TokenStream.pending s = dumpList t vs ++ .endArray n :: rest →
      (dumpList t vs).length + t.depth + 2 ≤ f →
      ∃ p', parseSetElems f t s acc
        = .ok (.varr (acc ++ vs), ⟨rest, s.fin, none, none, p'⟩)) ∧
    (∀ t vs acc s rest n, hasTyList vs t = true → noSomeNoneList vs = true →
      (acc ++ vs).Nodup →
      s.error = none →
      TokenStream.pending s = dumpList t vs ++ .endArray n :: rest →
      (dumpList t vs).length + t.depth + 2 ≤ f →
      ∃ p', parseUSetElems f t s acc
        = .ok (.varr (acc ++ vs), ⟨rest, s.fin, none, none, p'⟩)) ∧
    (∀ t es acc s rest n, hasTyEntries es t = true →
      noSomeNoneEntries es = true →
      ((acc ++ es).map Prod.fst).Nodup →
      s.error = none →
      TokenStream.pending s = dumpEntries t es ++ .endObject n :: rest →
      (dumpEntries t es).length + t.depth + 2 ≤ f →
      ∃ p', parseUDict f t s acc
        = .ok (.vdict (acc ++ es), ⟨rest, s.fin, none, none, p'⟩)) := by
  intro f
  induction f with
  | zero =>
    refine ⟨fun ty v s rest _ _ _ _ hfu => absurd hfu (by omega),
      fun t vs acc s rest n _ _ _ _ hfu => absurd hfu (by omega),
      fun t es acc s rest n _ _ _ _ _ hfu => absurd hfu (by omega),
      fun fs vs s rest n _ _ _ _ _ hfu => absurd hfu (by omega),
      fun fs done todo vsDone vsTodo s rest n _ _ _ _ _ _ _ hfu =>
        absurd hfu (by omega),
      fun t vs acc s rest n _ _ _ _ _ hfu => absurd hfu (by omega),
      fun t vs acc s rest n _ _ _ _ _ hfu => absurd hfu (by omega),
      fun t es acc s rest n _ _ _ _ _ hfu => absurd hfu (by omega)⟩
  | succ f ih =>
    obtain ⟨ihP, ihE, ihD, ihO, ihL, ihS, ihU, ihM⟩ := ih
    refine ⟨?_, ?_, ?_, ?_, ?_, ?_, ?_, ?_⟩
    · -- parse
      intro ty v s rest hty hnsn herr hpend hfuel
      cases ty with
      | jbool =>
        cases v
        case vbool b =>
          rw [show dump .jbool (.vbool b) = [.bool b] from rfl] at hpend
          obtain ⟨p2, hn⟩ := next_pending herr hpend
          refine ⟨p2, ?_⟩
          rw [parse_jbool_succ, parseScalar_next hn]
          rfl
        all_goals exact absurd hty (by simp [hasTy])
      | jint k =>
        cases v
        case vint nv =>
          simp only [hasTy, decide_eq_true_eq] at hty
          have hkb : -(2 ^ 63) ≤ (IntKind.ty k).minVal
              ∧ (IntKind.ty k).maxVal ≤ 2 ^ 64 - 1 := by
            cases k <;> exact ⟨by decide, by decide⟩
          obtain ⟨tt, htok, htlo, hthi⟩ :=
            writerInteger_ranged hty.1 hty.2 hkb.1 hkb.2
          rw [show dump (.jint k) (.vint nv) = [writerInteger k.ty nv] from rfl,
            htok] at hpend
          obtain ⟨p2, hn⟩ := next_pending herr hpend
          refine ⟨p2, ?_⟩
          rw [parse_jint_succ, parseScalar_next hn]
          have hir : in_range k.ty tt nv = true :=
            (in_range_iff k.ty tt nv htlo hthi).mpr ⟨hty.1, hty.2⟩
          simp [parseValue, hir, Except.map]
        all_goals exact absurd hty (by simp [hasTy])
      | jstr =>
        cases v
        case vstr sv =>
          rw [show dump .jstr (.vstr sv) = [.str sv] from rfl] at hpend
          obtain ⟨p2, hn⟩ := next_pending herr hpend
          refine ⟨p2, ?_⟩
          rw [parse_jstr_succ, parseScalar_next hn]
          rfl
        all_goals exact absurd hty (by simp [hasTy])
      | jopt t =>
        cases v
        case vnone =>
          rw [show dump (.jopt t) .vnone = [.null] from rfl,
            List.singleton_append] at hpend
          obtain ⟨p2, hpk⟩ := peek_pending herr hpend
          refine ⟨p2, ?_⟩
          rw [parse_jopt_null f t hpk]
          simp [next_cached_mk]
        case vsome w =>
          simp only [hasTy] at hty
          simp only [noSomeNone, Bool.and_eq_true] at hnsn
          obtain ⟨hnn1, hnn2⟩ := hnsn
          have hdv : dump (.jopt t) (.vsome w) = dump t w := rfl
          rw [hdv] at hpend hfuel
          obtain ⟨tok, l, hdl, _, hnull⟩ := dump_head w t hty
          rw [hdl, List.cons_append] at hpend
          obtain ⟨p2, hpk⟩ := peek_pending herr hpend
          have hs2 : TokenStream.pending
              ⟨l ++ rest, s.fin, some tok, none, p2⟩ = dump t w ++ rest := by
            simp [TokenStream.pending, hdl]
          have hfu2 : (dump t w).length + t.depth < f := by
            simp only [JTy.depth] at hfuel
            omega
          obtain ⟨p', hrec⟩ :=
            ihP t w ⟨l ++ rest, s.fin, some tok, none, p2⟩ rest hty hnn2 rfl
              hs2 hfu2
          refine ⟨p', ?_⟩
          rw [parse_jopt_step f t hpk (hnull hnn2 (isNotNone_ne hnn1)), hrec]
        all_goals exact absurd hty (by simp [hasTy])
      | jarr t =>
        cases v
        case varr vs =>
          simp only [hasTy] at hty
          simp only [noSomeNone] at hnsn
          have hdv : dump (.jarr t) (.varr vs)
              = .startArray :: (dumpList t vs ++ [.endArray vs.length]) := rfl
          rw [hdv] at hpend hfuel
          rw [List.cons_append] at hpend
          obtain ⟨p2, hn⟩ := next_pending herr hpend
          have hs2 : TokenStream.pending
              ⟨(dumpList t vs ++ [.endArray vs.length]) ++ rest, s.fin, none,
                none, p2⟩
              = dumpList t vs ++ .endArray vs.length :: rest := by
            simp [TokenStream.pending]
          have hfu2 : (dumpList t vs).length + t.depth + 2 ≤ f := by
            simp only [JTy.depth, List.length_cons, List.length_append,
              List.length_nil] at hfuel
            omega
          obtain ⟨p', hel⟩ :=
            ihE t vs [] ⟨(dumpList t vs ++ [.endArray vs.length]) ++ rest,
              s.fin, none, none, p2⟩ rest vs.length hty hnsn rfl hs2 hfu2
          refine ⟨p', ?_⟩
          rw [parse_jarr_start f t hn, hel]
          simp
        all_goals exact absurd hty (by simp [hasTy])
      | jset t =>
        cases v
        case varr vs =>
          simp only [hasTy, Bool.and_eq_true] at hty
          obtain ⟨hsrt, htl⟩ := hty
          simp only [noSomeNone] at hnsn
          have hdv : dump (.jset t) (.varr vs)
              = .startArray :: (dumpList t vs ++ [.endArray vs.length]) := rfl
          rw [hdv] at hpend hfuel
          rw [List.cons_append] at hpend
          obtain ⟨p2, hn⟩ := next_pending herr hpend
          have hs2 : TokenStream.pending
              ⟨(dumpList t vs ++ [.endArray vs.length]) ++ rest, s.fin, none,
                none, p2⟩
              = dumpList t vs ++ .endArray vs.length :: rest := by
            simp [TokenStream.pending]
          have hfu2 : (dumpList t vs).length + t.depth + 2 ≤ f := by
            simp only [JTy.depth, List.length_cons, List.length_append,
              List.length_nil] at hfuel
            omega
          obtain ⟨p', hel⟩ :=
            ihS t vs [] ⟨(dumpList t vs ++ [.endArray vs.length]) ++ rest,
              s.fin, none, none, p2⟩ rest vs.length htl hnsn hsrt rfl hs2 hfu2
          refine ⟨p', ?_⟩
          rw [parse_jset_start f t hn, hel]
          simp
        all_goals exact absurd hty (by simp [hasTy])
      | juset t =>
        cases v
        case varr vs =>
          simp only [hasTy, Bool.and_eq_true, decide_eq_true_eq] at hty
          obtain ⟨hnd, htl⟩ := hty
          simp only [noSomeNone] at hnsn
          have hdv : dump (.juset t) (.varr vs)
              = .startArray :: (dumpList t vs ++ [.endArray vs.length]) := rfl
          rw [hdv] at hpend hfuel
          rw [List.cons_append] at hpend
          obtain ⟨p2, hn⟩ := next_pending herr hpend
          have hs2 : TokenStream.pending
              ⟨(dumpList t vs ++ [.endArray vs.length]) ++ rest, s.fin, none,
                none, p2⟩
              = dumpList t vs ++ .endArray vs.length :: rest := by
            simp [TokenStream.pending]
          have hfu2 : (dumpList t vs).length + t.depth + 2 ≤ f := by
            simp only [JTy.depth, List.length_cons, List.length_append,
              List.length_nil] at hfuel
            omega
          obtain ⟨p', hel⟩ :=
            ihU t vs [] ⟨(dumpList t vs ++ [.endArray vs.length]) ++ rest,
              s.fin, none, none, p2⟩ rest vs.length htl hnsn hnd rfl hs2 hfu2
          refine ⟨p', ?_⟩
          rw [parse_juset_start f t hn, hel]
          simp
        all_goals exact absurd hty (by simp [hasTy])
      | jdict t =>
        cases v
        case vdict es =>
          simp only [hasTy, Bool.and_eq_true] at hty
          obtain ⟨hsrt, hte⟩ := hty
          simp only [noSomeNone] at hnsn
          have hdv : dump (.jdict t) (.vdict es)
              = .startObject :: (dumpEntries t es ++ [.endObject es.length])
              := rfl
          rw [hdv] at hpend hfuel
          rw [List.cons_append] at hpend
          obtain ⟨p2, hn⟩ := next_pending herr hpend
          have hs2 : TokenStream.pending
              ⟨(dumpEntries t es ++ [.endObject es.length]) ++ rest, s.fin,
                none, none, p2⟩
              = dumpEntries t es ++ .endObject es.length :: rest := by
            simp [TokenStream.pending]
          have hfu2 : (dumpEntries t es).length + t.depth + 2 ≤ f := by
            simp only [JTy.depth, List.length_cons, List.length_append,
              List.length_nil] at hfuel
            omega
          obtain ⟨p', hd⟩ :=
            ihD t es [] ⟨(dumpEntries t es ++ [.endObject es.length]) ++ rest,
              s.fin, none, none, p2⟩ rest es.length hte hnsn hsrt rfl hs2 hfu2
          refine ⟨p', ?_⟩
          rw [parse_jdict_start f t hn, hd]
          simp
        all_goals exact absurd hty (by simp [hasTy])
      | judict t =>
        cases v
        case vdict es =>
          simp only [hasTy, Bool.and_eq_true, decide_eq_true_eq] at hty
          obtain ⟨hnd, hte⟩ := hty
          simp only [noSomeNone] at hnsn
          have hdv : dump (.judict t) (.vdict es)
              = .startObject :: (dumpEntries t es ++ [.endObject es.length])
              := rfl
          rw [hdv] at hpend hfuel
          rw [List.cons_append] at hpend
          obtain ⟨p2, hn⟩ := next_pending herr hpend
          have hs2 : TokenStream.pending
              ⟨(dumpEntries t es ++ [.endObject es.length]) ++ rest, s.fin,
                none, none, p2⟩
              = dumpEntries t es ++ .endObject es.length :: rest := by
            simp [TokenStream.pending]
          have hfu2 : (dumpEntries t es).length + t.depth + 2 ≤ f := by
            simp only [JTy.depth, List.length_cons, List.length_append,
              List.length_nil] at hfuel
            omega
          obtain ⟨p', hd⟩ :=
            ihM t es [] ⟨(dumpEntries t es ++ [.endObject es.length]) ++ rest,
              s.fin, none, none, p2⟩ rest es.length hte hnsn hnd rfl hs2 hfu2
          refine ⟨p', ?_⟩
          rw [parse_judict_start f t hn, hd]
          simp
        all_goals exact absurd hty (by simp [hasTy])
      | jrec fs =>
        cases v
        case vrec vs =>
          simp only [hasTy, Bool.and_eq_true] at hty
          obtain ⟨hdn, htf⟩ := hty
          simp only [noSomeNone] at hnsn
          have hdv : dump (.jrec fs) (.vrec vs)
              = .startObject :: (dumpFields fs vs ++ [.endObject fs.length])
              := rfl
          rw [hdv] at hpend hfuel
          have hp2 : TokenStream.pending s
              = .startObject :: (dumpFields fs vs ++ .endObject fs.length
                  :: rest) := by
            rw [hpend]
            simp
          have hfu2 : (dumpFields fs vs).length + fieldsDepth fs + 3 ≤ f := by
            simp only [JTy.depth, List.length_cons, List.length_append,
              List.length_nil] at hfuel
            omega
          obtain ⟨p', ho⟩ :=
            ihO fs vs s rest fs.length hdn htf hnsn herr hp2 hfu2
          refine ⟨p', ?_⟩
          rw [parse_jrec_step f fs ho]
          simp [Function.comp_def]
        all_goals exact absurd hty (by simp [hasTy])
    · -- parseElems
      intro t vs acc s rest n htl hnl herr hpend hfu
      cases vs with
      | nil =>
        rw [show dumpList t ([] : List JVal) = [] from rfl,
          List.nil_append] at hpend
        obtain ⟨p2, hpk⟩ := peek_pending herr hpend
        refine ⟨p2, ?_⟩
        rw [parseElems_end f t acc hpk]
        simp [next_cached_mk]
      | cons w vs' =>
        simp only [hasTyList, Bool.and_eq_true] at htl
        obtain ⟨htw, htl'⟩ := htl
        simp only [noSomeNoneList, Bool.and_eq_true] at hnl
        obtain ⟨hnw, hnl'⟩ := hnl
        have hdv : dumpList t (w :: vs') = dump t w ++ dumpList t vs' := rfl
        rw [hdv] at hpend hfu
        obtain ⟨tok, l, hdl, hea, _⟩ := dump_head w t htw
        rw [hdl, List.cons_append, List.cons_append] at hpend
        obtain ⟨p2, hpk⟩ := peek_pending herr hpend
        have hs2 : TokenStream.pending
            ⟨(l ++ dumpList t vs') ++ .endArray n :: rest, s.fin, some tok,
              none, p2⟩
            = dump t w ++ (dumpList t vs' ++ .endArray n :: rest) := by
          simp [TokenStream.pending, hdl]
        have hlen1 : (dump t w).length = l.length + 1 := by
          rw [hdl]
          rfl
        have hfw : (dump t w).length + t.depth < f := by
          simp only [List.length_append, hlen1] at hfu ⊢
          omega
        obtain ⟨p1, hw⟩ :=
          ihP t w ⟨(l ++ dumpList t vs') ++ .endArray n :: rest, s.fin,
            some tok, none, p2⟩ (dumpList t vs' ++ .endArray n :: rest)
            htw hnw rfl hs2 hfw
        have hfv : (dumpList t vs').length + t.depth + 2 ≤ f := by
          simp only [List.length_append, hlen1] at hfu
          omega
        obtain ⟨p', hrest2⟩ :=
          ihE t vs' (acc ++ [w]) ⟨dumpList t vs' ++ .endArray n :: rest,
            s.fin, none, none, p1⟩ rest n htl' hnl' rfl rfl hfv
        refine ⟨p', ?_⟩
        rw [parseElems_step f t acc hpk hea, hw]
        show parseElems f t ⟨dumpList t vs' ++ .endArray n :: rest, s.fin,
          none, none, p1⟩ (acc ++ [w]) = _
        rw [hrest2]
        simp
    · -- parseDict
      intro t es acc s rest n hte hne hsort herr hpend hfu
      cases es with
      | nil =>
        rw [show dumpEntries t ([] : List (String × JVal)) = [] from rfl,
          List.nil_append] at hpend
        obtain ⟨p2, hn⟩ := next_pending herr hpend
        refine ⟨p2, ?_⟩
        rw [parseDict_end f t acc hn]
        simp
      | cons q es' =>
        obtain ⟨k, w⟩ := q
        simp only [hasTyEntries, Bool.and_eq_true] at hte
        obtain ⟨htw, hte'⟩ := hte
        simp only [noSomeNoneEntries, Bool.and_eq_true] at hne
        obtain ⟨hnw, hne'⟩ := hne
        have hdv : dumpEntries t ((k, w) :: es')
            = .key k :: (dump t w ++ dumpEntries t es') := rfl
        rw [hdv] at hpend hfu
        rw [List.cons_append] at hpend
        obtain ⟨p2, hn⟩ := next_pending herr hpend
        have hs2 : TokenStream.pending
            ⟨(dump t w ++ dumpEntries t es') ++ .endObject n :: rest, s.fin,
              none, none, p2⟩
            = dump t w ++ (dumpEntries t es' ++ .endObject n :: rest) := by
          simp [TokenStream.pending]
        have hfw : (dump t w).length + t.depth < f := by
          simp only [List.length_cons, List.length_append] at hfu
          omega
        obtain ⟨p1, hw⟩ :=
          ihP t w ⟨(dump t w ++ dumpEntries t es') ++ .endObject n :: rest,
            s.fin, none, none, p2⟩ (dumpEntries t es' ++ .endObject n :: rest)
            htw hnw rfl hs2 hfw
        have hsort' : strictSorted (acc.map Prod.fst ++ k :: es'.map Prod.fst)
            = true := by
          simpa using hsort
        obtain ⟨hlt, hsk⟩ := strictSorted_split hsort'
        have hins : dictInsert k w acc = acc ++ [(k, w)] :=
          dictInsert_append hlt
        have hsort2 : strictSorted (((acc ++ [(k, w)]) ++ es').map Prod.fst)
            = true := by
          simpa using hsort
        have hfv : (dumpEntries t es').length + t.depth + 2 ≤ f := by
          simp only [List.length_cons, List.length_append] at hfu
          omega
        obtain ⟨p', hrest2⟩ :=
          ihD t es' (acc ++ [(k, w)]) ⟨dumpEntries t es'
              ++ .endObject n :: rest, s.fin, none, none, p1⟩ rest n
            hte' hne' hsort2 rfl rfl hfv
        refine ⟨p', ?_⟩
        rw [parseDict_key f t acc hn, hw]
        show parseDict f t ⟨dumpEntries t es' ++ .endObject n :: rest, s.fin,
          none, none, p1⟩ (dictInsert k w acc) = _
        rw [hins, hrest2]
        simp
    · -- parseObject
      intro fs vs s rest n hdn htf hnl herr hpend hfu
      obtain ⟨p2, hn⟩ := next_pending herr hpend
      have hinit : (defaultsOf fs).map (fun v => (v, false))
          = ([] : List JVal).map (fun v => (v, true))
            ++ fs.map (fun p => (p.2.defaultVal, false)) := by
        rw [defaultsOf_eq_map]
        simp [Function.comp_def]
      have hfu2 : (dumpFields fs vs).length + fieldsDepth fs + 2 ≤ f := by
        omega
      obtain ⟨p', hl⟩ :=
        ihL fs [] fs [] vs ⟨dumpFields fs vs ++ .endObject n :: rest, s.fin,
          none, none, p2⟩ rest n hdn rfl rfl htf hnl rfl rfl hfu2
      refine ⟨p', ?_⟩
      rw [parseObject_start f fs _ hn, hinit, hl]
      simp
    · -- parseObjLoop
      intro fs done todo vsDone vsTodo s rest n hdn hsplit hlen htf hnl herr
        hpend hfu
      cases todo with
      | nil =>
        cases vsTodo with
        | cons w vsT' => simp [hasTyFields] at htf
        | nil =>
          rw [show dumpFields ([] : List (String × JTy)) ([] : List JVal)
              = [] from rfl, List.nil_append] at hpend
          obtain ⟨p2, hn⟩ := next_pending herr hpend
          refine ⟨p2, ?_⟩
          rw [parseObjLoop_end f fs _ hn]
          have hall : allReady fs (vsDone.map (fun v => (v, true))
              ++ ([] : List (String × JTy)).map
                (fun p => (p.2.defaultVal, false))) = true := by
            apply allReady_all_set
            intro q hq
            simp only [List.map_nil, List.append_nil, List.mem_map] at hq
            obtain ⟨v, _, rfl⟩ := hq
            rfl
          rw [if_pos hall]
          simp
      | cons q todo' =>
        obtain ⟨nm, ft⟩ := q
        cases vsTodo with
        | nil => simp [hasTyFields] at htf
        | cons w vsT' =>
          simp only [hasTyFields, Bool.and_eq_true] at htf
          obtain ⟨htw, htf'⟩ := htf
          simp only [noSomeNoneList, Bool.and_eq_true] at hnl
          obtain ⟨hnw, hnl'⟩ := hnl
          have hdv : dumpFields ((nm, ft) :: todo') (w :: vsT')
              = .key nm :: (dump ft w ++ dumpFields todo' vsT') := rfl
          rw [hdv] at hpend hfu
          rw [List.cons_append] at hpend
          obtain ⟨p2, hn⟩ := next_pending herr hpend
          have hnd : (fs.map Prod.fst).Nodup := of_decide_eq_true hdn
          have hfs_i : fs[done.length]? = some (nm, ft) := by
            rw [hsplit, List.getElem?_append_right (le_refl done.length)]
            simp
          have hlk : mapLookup nm (buildFieldsMap fs) = some done.length :=
            mapLookup_buildFieldsMap hnd hfs_i
          have hst_i : (vsDone.map (fun v => (v, true))
              ++ ((nm, ft) :: todo').map
                (fun p => (p.2.defaultVal, false)))[done.length]?
              = some (ft.defaultVal, false) := by
            rw [List.getElem?_append_right (by simp [hlen])]
            simp [hlen]
          have hs2 : TokenStream.pending
              ⟨(dump ft w ++ dumpFields todo' vsT') ++ .endObject n :: rest,
                s.fin, none, none, p2⟩
              = dump ft w ++ (dumpFields todo' vsT' ++ .endObject n :: rest)
              := by
            simp [TokenStream.pending]
          have hfw : (dump ft w).length + ft.depth < f := by
            have hd2 : ft.depth ≤ fieldsDepth fs := by
              apply fieldsDepth_ge
              rw [hsplit]
              exact List.mem_append_right _ (List.mem_cons_self _ _)
            simp only [List.length_cons, List.length_append] at hfu
            omega
          obtain ⟨p1, hw⟩ :=
            ihP ft w ⟨(dump ft w ++ dumpFields todo' vsT')
                ++ .endObject n :: rest, s.fin, none, none, p2⟩
              (dumpFields todo' vsT' ++ .endObject n :: rest)
              htw hnw rfl hs2 hfw
          have hset : (vsDone.map (fun v => (v, true))
              ++ ((nm, ft) :: todo').map
                (fun p => (p.2.defaultVal, false))).set done.length (w, true)
              = (vsDone ++ [w]).map (fun v => (v, true))
                ++ todo'.map (fun p => (p.2.defaultVal, false)) := by
            have h1 : vsDone.map (fun v => (v, true))
                ++ ((nm, ft) :: todo').map
                  (fun p => (p.2.defaultVal, false))
                = vsDone.map (fun v => (v, true))
                  ++ ((ft.defaultVal, false)
                    :: todo'.map (fun p => (p.2.defaultVal, false))) := by
              simp
            have h2 : done.length = (vsDone.map (fun v => (v, true))).length
                := by simp [hlen]
            rw [h1, h2, set_append_length]
            simp
          have hfv : (dumpFields todo' vsT').length + fieldsDepth fs + 2 ≤ f
              := by
            simp only [List.length_cons, List.length_append] at hfu
            omega
          obtain ⟨p', hl⟩ :=
            ihL fs (done ++ [(nm, ft)]) todo' (vsDone ++ [w]) vsT'
              ⟨dumpFields todo' vsT' ++ .endObject n :: rest, s.fin, none,
                none, p1⟩ rest n
              hdn (by rw [hsplit]; simp) (by simp [hlen]) htf' hnl' rfl rfl
              hfv
          refine ⟨p', ?_⟩
          rw [parseObjLoop_key f fs _ hn hlk hfs_i hst_i]
          simp only [Bool.false_eq_true, if_false]
          rw [hw]
          show parseObjLoop f fs ((vsDone.map (fun v => (v, true))
              ++ ((nm, ft) :: todo').map
                (fun p => (p.2.defaultVal, false))).set done.length (w, true))
            ⟨dumpFields todo' vsT' ++ .endObject n :: rest, s.fin, none,
              none, p1⟩ = _
          rw [hset, hl]
          simp
    · -- parseSetElems
      intro t vs acc s rest n htl hnl hsort herr hpend hfu
      cases vs with
      | nil =>
        rw [show dumpList t ([] : List JVal) = [] from rfl,
          List.nil_append] at hpend
        obtain ⟨p2, hpk⟩ := peek_pending herr hpend
        refine ⟨p2, ?_⟩
        rw [parseSetElems_end f t acc hpk]
        simp [next_cached_mk]
      | cons w vs' =>
        simp only [hasTyList, Bool.and_eq_true] at htl
        obtain ⟨htw, htl'⟩ := htl
        simp only [noSomeNoneList, Bool.and_eq_true] at hnl
        obtain ⟨hnw, hnl'⟩ := hnl
        have hdv : dumpList t (w :: vs') = dump t w ++ dumpList t vs' := rfl
        rw [hdv] at hpend hfu
        obtain ⟨tok, l, hdl, hea, _⟩ := dump_head w t htw
        rw [hdl, List.cons_append, List.cons_append] at hpend
        obtain ⟨p2, hpk⟩ := peek_pending herr hpend
        have hs2 : TokenStream.pending
            ⟨(l ++ dumpList t vs') ++ .endArray n :: rest, s.fin, some tok,
              none, p2⟩
            = dump t w ++ (dumpList t vs' ++ .endArray n :: rest) := by
          simp [TokenStream.pending, hdl]
        have hlen1 : (dump t w).length = l.length + 1 := by
          rw [hdl]
          rfl
        have hfw : (dump t w).length + t.depth < f := by
          simp only [List.length_append, hlen1] at hfu ⊢
          omega
        obtain ⟨p1, hw⟩ :=
          ihP t w ⟨(l ++ dumpList t vs') ++ .endArray n :: rest, s.fin,
            some tok, none, p2⟩ (dumpList t vs' ++ .endArray n :: rest)
            htw hnw rfl hs2 hfw
        obtain ⟨hlt, hsk⟩ := strictSortedVals_split hsort
        have hins : setInsert w acc = acc ++ [w] := setInsert_append hlt
        have hsort2 : strictSortedVals ((acc ++ [w]) ++ vs') = true := by
          simpa using hsort
        have hfv : (dumpList t vs').length + t.depth + 2 ≤ f := by
          simp only [List.length_append, hlen1] at hfu
          omega
        obtain ⟨p', hrest2⟩ :=
          ihS t vs' (acc ++ [w]) ⟨dumpList t vs' ++ .endArray n :: rest,
            s.fin, none, none, p1⟩ rest n htl' hnl' hsort2 rfl rfl hfv
        refine ⟨p', ?_⟩
        rw [parseSetElems_step f t acc hpk hea, hw]
        show parseSetElems f t ⟨dumpList t vs' ++ .endArray n :: rest, s.fin,
          none, none, p1⟩ (setInsert w acc) = _
        rw [hins, hrest2]
        simp
    · -- parseUSetElems
      intro t vs acc s rest n htl hnl hnd herr hpend hfu
      cases vs with
      | nil =>
        rw [show dumpList t ([] : List JVal) = [] from rfl,
          List.nil_append] at hpend
        obtain ⟨p2, hpk⟩ := peek_pending herr hpend
        refine ⟨p2, ?_⟩
        rw [parseUSetElems_end f t acc hpk]
        simp [next_cached_mk]
      | cons w vs' =>
        simp only [hasTyList, Bool.and_eq_true] at htl
        obtain ⟨htw, htl'⟩ := htl
        simp only [noSomeNoneList, Bool.and_eq_true] at hnl
        obtain ⟨hnw, hnl'⟩ := hnl
        have hdv : dumpList t (w :: vs') = dump t w ++ dumpList t vs' := rfl
        rw [hdv] at hpend hfu
        obtain ⟨tok, l, hdl, hea, _⟩ := dump_head w t htw
        rw [hdl, List.cons_append, List.cons_append] at hpend
        obtain ⟨p2, hpk⟩ := peek_pending herr hpend
        have hs2 : TokenStream.pending
            ⟨(l ++ dumpList t vs') ++ .endArray n :: rest, s.fin, some tok,
              none, p2⟩
            = dump t w ++ (dumpList t vs' ++ .endArray n :: rest) := by
          simp [TokenStream.pending, hdl]
        have hlen1 : (dump t w).length = l.length + 1 := by
          rw [hdl]
          rfl
        have hfw : (dump t w).length + t.depth < f := by
          simp only [List.length_append, hlen1] at hfu ⊢
          omega
        obtain ⟨p1, hw⟩ :=
          ihP t w ⟨(l ++ dumpList t vs') ++ .endArray n :: rest, s.fin,
            some tok, none, p2⟩ (dumpList t vs' ++ .endArray n :: rest)
            htw hnw rfl hs2 hfw
        have hins : usetInsert w acc = acc ++ [w] :=
          usetInsert_not_mem (nodup_append_cons_head hnd)
        have hnd2 : ((acc ++ [w]) ++ vs').Nodup := by
          simpa using hnd
        have hfv : (dumpList t vs').length + t.depth + 2 ≤ f := by
          simp only [List.length_append, hlen1] at hfu
          omega
        obtain ⟨p', hrest2⟩ :=
          ihU t vs' (acc ++ [w]) ⟨dumpList t vs' ++ .endArray n :: rest,
            s.fin, none, none, p1⟩ rest n htl' hnl' hnd2 rfl rfl hfv
        refine ⟨p', ?_⟩
        rw [parseUSetElems_step f t acc hpk hea, hw]
        show parseUSetElems f t ⟨dumpList t vs' ++ .endArray n :: rest, s.fin,
          none, none, p1⟩ (usetInsert w acc) = _
        rw [hins, hrest2]
        simp
    · -- parseUDict
      intro t es acc s rest n hte hne hnd herr hpend hfu
      cases es with
      | nil =>
        rw [show dumpEntries t ([] : List (String × JVal)) = [] from rfl,
          List.nil_append] at hpend
        obtain ⟨p2, hn⟩ := next_pending herr hpend
        refine ⟨p2, ?_⟩
        rw [parseUDict_end f t acc hn]
        simp
      | cons q es' =>
        obtain ⟨k, w⟩ := q
        simp only [hasTyEntries, Bool.and_eq_true] at hte
        obtain ⟨htw, hte'⟩ := hte
        simp only [noSomeNoneEntries, Bool.and_eq_true] at hne
        obtain ⟨hnw, hne'⟩ := hne
        have hdv : dumpEntries t ((k, w) :: es')
            = .key k :: (dump t w ++ dumpEntries t es') := rfl
        rw [hdv] at hpend hfu
        rw [List.cons_append] at hpend
        obtain ⟨p2, hn⟩ := next_pending herr hpend
        have hs2 : TokenStream.pending
            ⟨(dump t w ++ dumpEntries t es') ++ .endObject n :: rest, s.fin,
              none, none, p2⟩
            = dump t w ++ (dumpEntries t es' ++ .endObject n :: rest) := by
          simp [TokenStream.pending]
        have hfw : (dump t w).length + t.depth < f := by
          simp only [List.length_cons, List.length_append] at hfu
          omega
        obtain ⟨p1, hw⟩ :=
          ihP t w ⟨(dump t w ++ dumpEntries t es') ++ .endObject n :: rest,
            s.fin, none, none, p2⟩ (dumpEntries t es' ++ .endObject n :: rest)
            htw hnw rfl hs2 hfw
        have hnd' : (acc.map Prod.fst ++ k :: es'.map Prod.fst).Nodup := by
          simpa using hnd
        have hins : udictInsert k w acc = acc ++ [(k, w)] :=
          udictInsert_not_mem (nodup_append_cons_head hnd')
        have hnd2 : (((acc ++ [(k, w)]) ++ es').map Prod.fst).Nodup := by
          simpa using hnd
        have hfv : (dumpEntries t es').length + t.depth + 2 ≤ f := by
          simp only [List.length_cons, List.length_append] at hfu
          omega
        obtain ⟨p', hrest2⟩ :=
          ihM t es' (acc ++ [(k, w)]) ⟨dumpEntries t es'
              ++ .endObject n :: rest, s.fin, none, none, p1⟩ rest n
            hte' hne' hnd2 rfl rfl hfv
        refine ⟨p', ?_⟩
        rw [parseUDict_key f t acc hn, hw]
        show parseUDict f t ⟨dumpEntries t es' ++ .endObject n :: rest, s.fin,
          none, none, p1⟩ (udictInsert k w acc) = _
        rw [hins, hrest2]
        simp

/-! ### The claims -/

/-- C4: parsing an integer-category token with runtime value v into an
integer target succeeds with v exactly when v lies in the target's
representable range under mathematically exact comparison; otherwise it
fails with the semantic error about the integer range at the current
path. -/
theorem C4_integer_range (f : Nat) (k : IntKind) (tt : IntTy) (v : Int)
    (rest : List Token) (fin : Except String Unit) (p : List PathComp)
    (hlo : tt.minVal ≤ v) (hhi : v ≤ tt.maxVal) :
    (k.ty.minVal ≤ v ∧ v ≤ k.ty.maxVal →
      parse (f + 1) (.jint k) ⟨.num tt v :: rest, fin, none, none, p⟩
        = .ok (.vint v, ⟨rest, fin, none, none, pathValue p⟩)) ∧
    (¬(k.ty.minVal ≤ v ∧ v ≤ k.ty.maxVal) →
      parse (f + 1) (.jint k) ⟨.num tt v :: rest, fin, none, none, p⟩
        = .error ⟨.parseErr, "Integer value not in range",
            some (renderPath (pathValue p))⟩) := by
  have hall : parse (f + 1) (.jint k) ⟨.num tt v :: rest, fin, none, none, p⟩
      = (parseValue (.jint k) (.num tt v)
          (some (renderPath (pathValue p)))).map
          (fun w => (w, ⟨rest, fin, none, none, pathValue p⟩)) := by
    simp [parse, parseScalar, TokenStream.next, TokenStream.acquireToken,
      TokenStream.hasError, TokenStream.isComplete, TokenStream.advance,
      TokenStream.getPath, onAdvance]
  constructor
  · intro h
    rw [hall]
    simp only [parseValue, if_pos ((in_range_iff k.ty tt v hlo hhi).mpr h)]
    rfl
  · intro h
    rw [hall]
    have : in_range k.ty tt v = false := by
      rcases hb : in_range k.ty tt v
      · rfl
      · exact absurd ((in_range_iff k.ty tt v hlo hhi).mp hb) h
    simp only [parseValue, this, Bool.false_eq_true, if_false, Except.map]

/-- Witness for C4: the literal 300 does not fit an 8-bit signed target
and yields the range error; 42 fits and parses. -/
theorem C4_witness :
    parse 1 (.jint .i8) ⟨[.num u32ty 300], .ok (), none, none, []⟩
      = .error ⟨.parseErr, "Integer value not in range", some "root"⟩ ∧
    parse 1 (.jint .i8) ⟨[.num u32ty 42], .ok (), none, none, []⟩
      = .ok (.vint 42, ⟨[], .ok (), none, none, []⟩) :=
  ⟨(C4_integer_range 0 .i8 u32ty 300 [] (.ok ()) [] (by decide) (by decide)).2
      (by decide),
   (C4_integer_range 0 .i8 u32ty 42 [] (.ok ()) [] (by decide) (by decide)).1
      (by decide)⟩

/-- C2: when the record key loop receives a Key token whose field is
already set, it fails with the duplicate-key parse error carrying the
path of the key. -/
theorem C2_record_duplicate_key (f : Nat) (fs : List (String × JTy))
    (st : List (JVal × Bool)) (k nm : String) (i : Nat) (ft : JTy) (w : JVal)
    (rest : List Token) (fin : Except String Unit) (p : List PathComp)
    (hlook : mapLookup k (buildFieldsMap fs) = some i)
    (hf : fs[i]? = some (nm, ft)) (hst : st[i]? = some (w, true)) :
    parseObjLoop (f + 1) fs st ⟨.key k :: rest, fin, none, none, p⟩
      = (.error ⟨.parseErr, "Duplicate key: " ++ k,
          some (renderPath (pathKey k p))⟩, st) := by
  simp only [parseObjLoop, TokenStream.next, TokenStream.acquireToken,
    TokenStream.hasError, TokenStream.isComplete, TokenStream.advance,
    TokenStream.getPath, onAdvance]
  simp [hlook, hf, hst]

/-- Witness for C2: the second key a of an object parsed into a record
with field a already set yields the duplicate-key error at root.a. -/
theorem C2_witness :
    parseObjLoop 1 [("a", .jint .i32)] [(.vint 1, true)]
        ⟨[.key "a", .num u32ty 2, .endObject 1], .ok (), none, none,
          [.obj (some "a")]⟩
      = (.error ⟨.parseErr, "Duplicate key: a", some "root.a"⟩,
          [(.vint 1, true)]) :=
  C2_record_duplicate_key 0 [("a", .jint .i32)] [(.vint 1, true)] "a" "a" 0
    (.jint .i32) (.vint 1) [.num u32ty 2, .endObject 1] (.ok ())
    [.obj (some "a")] (by decide) rfl rfl

/-- C3: when the record key loop consumes EndObject it succeeds exactly
when every field descriptor is ready (set or of nullable type); else it
fails with the missing-keys message listing the not-ready names, at the
current path. -/
theorem C3_record_missing_keys (f : Nat) (fs : List (String × JTy))
    (st : List (JVal × Bool)) (n : Nat)
    (rest : List Token) (fin : Except String Unit) (p : List PathComp) :
    ((∀ q ∈ fs.zip st, q.2.2 = true ∨ q.1.2.isOpt = true) →
      parseObjLoop (f + 1) fs st ⟨.endObject n :: rest, fin, none, none, p⟩
        = (.ok ⟨rest, fin, none, none, pathEndObject p⟩, st)) ∧
    (¬(∀ q ∈ fs.zip st, q.2.2 = true ∨ q.1.2.isOpt = true) →
      parseObjLoop (f + 1) fs st ⟨.endObject n :: rest, fin, none, none, p⟩
        = (.error ⟨.parseErr, missingKeysMsg fs st,
            some (renderPath (pathEndObject p))⟩, st)) := by
  have hready : allReady fs st = true ↔
      (∀ q ∈ fs.zip st, q.2.2 = true ∨ q.1.2.isOpt = true) := by
    simp [allReady, List.all_eq_true, Bool.or_eq_true]
  constructor
  · intro h
    simp only [parseObjLoop, TokenStream.next, TokenStream.acquireToken,
      TokenStream.hasError, TokenStream.isComplete, TokenStream.advance,
      TokenStream.getPath, onAdvance]
    simp [hready.mpr h]
  · intro h
    have hfalse : allReady fs st = false := by
      rcases hb : allReady fs st
      · rfl
      · exact absurd (hready.mp hb) h
    simp only [parseObjLoop, TokenStream.next, TokenStream.acquireToken,
      TokenStream.hasError, TokenStream.isComplete, TokenStream.advance,
      TokenStream.getPath, onAdvance]
    simp [hfalse]

/-- Witness for C3: parsing an empty object into a record with one
non-nullable field x yields the missing-keys error listing x at
root. -/
theorem C3_witness :
    parseObjLoop 1 [("x", .jint .i32)] [(.vint 0, false)]
        ⟨[.endObject 0], .ok (), none, none, [.obj none]⟩
      = (.error ⟨.parseErr, "Missing keys: x, got end object", some "root"⟩,
          [(.vint 0, false)]) :=
  (C3_record_missing_keys 0 [("x", .jint .i32)] [(.vint 0, false)] 0 [] (.ok ())
      [.obj none]).2 (by decide)

/-- C5 counterexample: duplicate keys in a generic string-keyed map are
resolved keeping the value of the EARLIER occurrence (map emplace does
not overwrite), not the later one claimed; no error is raised. -/
theorem C5_counterexample :
    jsonParse (.jdict (.jint .i32))
        [.startObject, .key "a", .num u32ty 1, .key "a", .num u32ty 2,
         .endObject 2]
      = .ok (.vdict [("a", .vint 1)]) ∧
    (JVal.vdict [("a", .vint 1)]) ≠ .vdict [("a", .vint 2)] := by
  decide

/-- C5 amended: duplicate keys in a generic map parse are not detected
and raise no error; resolution is first-write-wins, the resulting map
holding the value of the earlier occurrence. -/
theorem C5_map_first_write_wins (n1 n2 : Int)
    (h1a : 0 ≤ n1) (h1b : n1 ≤ 2147483647)
    (h2a : 0 ≤ n2) (h2b : n2 ≤ 2147483647) :
    jsonParse (.jdict (.jint .i32))
        [.startObject, .key "a", .num u32ty n1, .key "a", .num u32ty n2,
         .endObject 2]
      = .ok (.vdict [("a", .vint n1)]) := by
  have e1 : in_range i32ty u32ty n1 = true := by
    rw [in_range_iff i32ty u32ty n1 (by simp [IntTy.minVal, u32ty]; omega)
      (by simp [IntTy.maxVal, u32ty]; omega)]
    constructor
    · simp [IntTy.minVal, i32ty]; omega
    · simp [IntTy.maxVal, i32ty]; omega
  have e2 : in_range i32ty u32ty n2 = true := by
    rw [in_range_iff i32ty u32ty n2 (by simp [IntTy.minVal, u32ty]; omega)
      (by simp [IntTy.maxVal, u32ty]; omega)]
    constructor
    · simp [IntTy.minVal, i32ty]; omega
    · simp [IntTy.maxVal, i32ty]; omega
  simp [jsonParse, mkStream, parse, parseDict, parseScalar, parseValue,
    TokenStream.next, TokenStream.acquireToken, TokenStream.hasError,
    TokenStream.isComplete, TokenStream.advance, TokenStream.getPath,
    onAdvance, JTy.depth, IntKind.ty, e1, e2, dictInsert, Except.map,
    (by decide : strLt "a" "a" = false)]

/-- Witness for the amended C5 theorem at the concrete duplicate
object. -/
theorem C5_witness :
    jsonParse (.jdict (.jint .i32))
        [.startObject, .key "a", .num u32ty 1, .key "a", .num u32ty 2,
         .endObject 2]
      = .ok (.vdict [("a", .vint 1)]) :=
  C5_map_first_write_wins 1 2 (by decide) (by decide) (by decide) (by decide)

/-- C6 counterexample: for the runtime value zero the writer takes the
SIGNED 32-bit primitive (the code tests value greater than zero), while
the claim assigns zero to the unsigned path. -/
theorem C6_counterexample :
    writerInteger u32ty 0 = .num i32ty 0 ∧ i32ty.sgn = true ∧ u32ty.sgn = false := by
  decide

/-- C6 amended: the writer primitive is selected by sign and magnitude
with zero on the signed side: strictly positive values take the
unsigned primitives (32-bit when the value fits, else 64-bit), and zero
or negative values take the signed primitives (32-bit when the value
fits, else 64-bit). -/
theorem C6_writer_integer_policy (srcTy : IntTy) (v : Int)
    (hlo : srcTy.minVal ≤ v) (hhi : v ≤ srcTy.maxVal) :
    (0 < v → (v ≤ 4294967295 → writerInteger srcTy v = .num u32ty v) ∧
             (4294967295 < v → writerInteger srcTy v = .num u64ty v)) ∧
    (v ≤ 0 → (-2147483648 ≤ v → writerInteger srcTy v = .num i32ty v) ∧
             (v < -2147483648 → writerInteger srcTy v = .num i64ty v)) := by
  have hu := in_range_iff u32ty srcTy v hlo hhi
  have hi := in_range_iff i32ty srcTy v hlo hhi
  have humin : u32ty.minVal = 0 := by decide
  have humax : u32ty.maxVal = 4294967295 := by decide
  have himin : i32ty.minVal = -2147483648 := by decide
  have himax : i32ty.maxVal = 2147483647 := by decide
  rw [humin, humax] at hu
  rw [himin, himax] at hi
  unfold writerInteger
  constructor
  · intro hpos
    constructor
    · intro hle
      rw [if_pos hpos, if_pos (hu.mpr ⟨by omega, hle⟩)]
    · intro hgt
      have hfalse : in_range u32ty srcTy v = false := by
        rcases hb : in_range u32ty srcTy v
        · rfl
        · have := hu.mp hb; omega
      rw [if_pos hpos, hfalse]
      simp
  · intro hnonpos
    have hnp : ¬ 0 < v := by omega
    constructor
    · intro hge
      rw [if_neg hnp, if_pos (hi.mpr ⟨hge, by omega⟩)]
    · intro hlt
      have hfalse : in_range i32ty srcTy v = false := by
        rcases hb : in_range i32ty srcTy v
        · rfl
        · have := hi.mp hb; omega
      rw [if_neg hnp, hfalse]
      simp

/-- Witness for the amended C6 theorem: zero emitted through the signed
32-bit primitive, a large positive value through the unsigned 64-bit
one. -/
theorem C6_witness :
    writerInteger i64ty 0 = .num i32ty 0 ∧
    writerInteger i64ty 5000000000 = .num u64ty 5000000000 :=
  ⟨((C6_writer_integer_policy i64ty 0 (by decide) (by decide)).2
      (by decide)).1 (by decide),
   ((C6_writer_integer_policy i64ty 5000000000 (by decide) (by decide)).1
      (by decide)).2 (by decide)⟩

/-- C7: a type mismatch nested inside object, array, object renders the
full structural path root.items[0].n on the semantic error. -/
theorem C7_nested_error_path :
    jsonParse (.jrec [("items", .jarr (.jrec [("n", .jint .i32)]))])
        [.startObject, .key "items", .startArray, .startObject, .key "n",
         .bool true, .endObject 1, .endArray 1, .endObject 1]
      = .error ⟨.parseErr, "Unexpected bool", some "root.items[0].n"⟩ := by
  decide

/-- C10: record parsing is not atomic in the caller's storage: field a
(initially 7) is overwritten with the parsed 5 as soon as its value
parses, and keeps 5 although the whole parse_object call then fails on
field b; the untouched field b keeps its initial 9. -/
theorem C10_record_partial_write :
    parseObject 6 [("a", .jint .i32), ("b", .jint .i32)]
        [(.vint 7, false), (.vint 9, false)]
        (mkStream [.startObject, .key "a", .num u32ty 5, .key "b",
          .bool true, .endObject 2])
      = (.error ⟨.parseErr, "Unexpected bool", some "root.b"⟩,
          [(.vint 5, true), (.vint 9, false)]) := by
  decide

/-- C8: peek is idempotent (a second peek returns the same token and
stream), a next immediately after a successful peek consumes exactly
the peeked token, and one cursor operation pulls at most one token from
the tokenizer. -/
theorem C8_peek_next_contract (s : TokenStream) :
    s.peek.2.peek = s.peek ∧
    (∀ t, s.error = none → s.peek.1 = some t →
      s.peek.2.next = (some t, { s.peek.2 with cached := none })) ∧
    s.toks.length ≤ s.peek.2.toks.length + 1 := by
  obtain ⟨toks, fin, cached, error, path⟩ := s
  refine ⟨?_, ?_, ?_⟩
  · cases error <;> cases cached <;> cases toks <;> cases fin <;>
      simp [TokenStream.peek, TokenStream.next, TokenStream.acquireToken,
        TokenStream.hasError, TokenStream.isComplete, TokenStream.advance]
  · intro t herr hpk
    cases error with
    | some e => exact absurd herr (by simp)
    | none =>
      cases cached <;> cases toks <;> cases fin <;>
        simp_all [TokenStream.peek, TokenStream.next, TokenStream.acquireToken,
          TokenStream.hasError, TokenStream.isComplete, TokenStream.advance]
  · cases error <;> cases cached <;> cases toks <;> cases fin <;>
      simp [TokenStream.peek, TokenStream.acquireToken,
        TokenStream.hasError, TokenStream.isComplete, TokenStream.advance]

/-- Witness for C8 on a fresh two-token stream. -/
theorem C8_witness :
    (mkStream [.bool true, .null]).peek.2.peek
      = (mkStream [.bool true, .null]).peek ∧
    (mkStream [.bool true, .null]).peek.1 = some (.bool true) ∧
    (mkStream [.bool true, .null]).peek.2.next
      = (some (.bool true),
          { (mkStream [.bool true, .null]).peek.2 with cached := none }) ∧
    (mkStream [.bool true, .null]).toks.length
      ≤ (mkStream [.bool true, .null]).peek.2.toks.length + 1 := by
  have h := C8_peek_next_contract (mkStream [.bool true, .null])
  exact ⟨h.1, by decide, h.2.1 (.bool true) rfl (by decide), h.2.2⟩

/-- C9: the public parse entry point does not require the input to be
fully consumed: a parse that succeeds on a token sequence returns the
same Ok value when further tokens follow the value. -/

theorem C9_trailing_ignored (ty : JTy) (toks extra : List Token) (v : JVal)
    (h : jsonParse ty toks = .ok v) :
    jsonParse ty (toks ++ extra) = .ok v := by
  unfold jsonParse at h ⊢
  rcases hp : parse (toks.length + ty.depth + 1) ty (mkStream toks)
    with err | ⟨w, s1⟩
  · rw [hp] at h
    exact Except.noConfusion h
  · rw [hp] at h
    injection h with h1
    subst h1
    have happ : appendToks (mkStream toks) extra = mkStream (toks ++ extra) := rfl
    have hm := (monoApp (toks.length + ty.depth + 1)).1
      ((toks ++ extra).length + ty.depth + 1) ty (mkStream toks) w s1 extra
      (by simp) hp
    rw [happ] at hm
    rw [hm]
    rfl

/-- Witness for C9: 42 followed by the trailing token true parses as
the integer 42. -/
theorem C9_witness :
    jsonParse (.jint .i32) [.num u32ty 42] = .ok (.vint 42) ∧
    jsonParse (.jint .i32) ([.num u32ty 42] ++ [.bool true]) = .ok (.vint 42) :=
  ⟨by decide, C9_trailing_ignored (.jint .i32) [.num u32ty 42] [.bool true]
    (.vint 42) (by decide)⟩

/-- C1 (counterexample to the unrestricted statement): std::optional of
std::optional has defined marshalling, and the present-holding-absent
value dumps to null, which re-parses as the absent optional; the round
trip loses the inner presence information. -/
theorem C1_counterexample :
    hasTy (.vsome .vnone) (.jopt (.jopt (.jint .i32))) = true
      ∧ jsonParse (.jopt (.jopt (.jint .i32)))
          (jsonDump (.jopt (.jopt (.jint .i32))) (.vsome .vnone))
        = .ok .vnone
      ∧ jsonParse (.jopt (.jopt (.jint .i32)))
          (jsonDump (.jopt (.jopt (.jint .i32))) (.vsome .vnone))
        ≠ .ok (.vsome .vnone) := by
  decide

/-- C1 (amended): the marshalling round trip over the whole
marshallable universe except floating-point scalars: for every
well-typed value none of whose present optional sub-values directly
holds an absent optional, parsing the dumped token stream yields
exactly the value. -/
theorem C1_roundtrip (ty : JTy) (v : JVal)
    (h1 : hasTy v ty = true) (h2 : noSomeNone v = true) :
    jsonParse ty (jsonDump ty v) = .ok v := by
  obtain ⟨p', hp⟩ := (roundtrip ((dump ty v).length + ty.depth + 1)).1 ty v
    (mkStream (dump ty v)) [] h1 h2 rfl
    (by simp [mkStream, TokenStream.pending])
    (by omega)
  rw [jsonDump, jsonParse, hp]
  rfl

/-- C1 witness: the round trip at a concrete record value exercising
every structural category: scalars, a present and an absent optional,
a vector, a sorted std::set, an unordered set in non-sorted iteration
order, a std::map, and an unordered map with non-sorted keys. -/
theorem C1_witness :
    hasTy
        (.vrec [.vbool true, .vint (-5), .vstr "x", .vsome (.vint 7),
          .varr [.vint 1, .vint 2],
          .vdict [("k1", .vstr "v"), ("k2", .vstr "w")], .vnone,
          .varr [.vint (-3), .vint 4],
          .varr [.vstr "b", .vstr "a"],
          .vdict [("z", .vint 1), ("y", .vint 2)]])
        (.jrec [("a", .jbool), ("b", .jint .i32), ("c", .jstr),
          ("d", .jopt (.jint .u8)), ("e", .jarr (.jint .i64)),
          ("f", .jdict .jstr), ("g", .jopt (.jint .i32)),
          ("h", .jset (.jint .i32)), ("i", .juset .jstr),
          ("j", .judict (.jint .u16))]) = true
      ∧ jsonParse
          (.jrec [("a", .jbool), ("b", .jint .i32), ("c", .jstr),
            ("d", .jopt (.jint .u8)), ("e", .jarr (.jint .i64)),
            ("f", .jdict .jstr), ("g", .jopt (.jint .i32)),
            ("h", .jset (.jint .i32)), ("i", .juset .jstr),
            ("j", .judict (.jint .u16))])
          (jsonDump
            (.jrec [("a", .jbool), ("b", .jint .i32), ("c", .jstr),
              ("d", .jopt (.jint .u8)), ("e", .jarr (.jint .i64)),
              ("f", .jdict .jstr), ("g", .jopt (.jint .i32)),
              ("h", .jset (.jint .i32)), ("i", .juset .jstr),
              ("j", .judict (.jint .u16))])
            (.vrec [.vbool true, .vint (-5), .vstr "x", .vsome (.vint 7),
              .varr [.vint 1, .vint 2],
              .vdict [("k1", .vstr "v"), ("k2", .vstr "w")], .vnone,
              .varr [.vint (-3), .vint 4],
              .varr [.vstr "b", .vstr "a"],
              .vdict [("z", .vint 1), ("y", .vint 2)]]))
        = .ok (.vrec [.vbool true, .vint (-5), .vstr "x", .vsome (.vint 7),
            .varr [.vint 1, .vint 2],
            .vdict [("k1", .vstr "v"), ("k2", .vstr "w")], .vnone,
            .varr [.vint (-3), .vint 4],
            .varr [.vstr "b", .vstr "a"],
            .vdict [("z", .vint 1), ("y", .vint 2)]]) :=
  ⟨by decide,
    C1_roundtrip
      (.jrec [("a", .jbool), ("b", .jint .i32), ("c", .jstr),
        ("d", .jopt (.jint .u8)), ("e", .jarr (.jint .i64)),
        ("f", .jdict .jstr), ("g", .jopt (.jint .i32)),
        ("h", .jset (.jint .i32)), ("i", .juset .jstr),
        ("j", .judict (.jint .u16))])
      (.vrec [.vbool true, .vint (-5), .vstr "x", .vsome (.vint 7),
        .varr [.vint 1, .vint 2],
        .vdict [("k1", .vstr "v"), ("k2", .vstr "w")], .vnone,
        .varr [.vint (-3), .vint 4],
        .varr [.vstr "b", .vstr "a"],
        .vdict [("z", .vint 1), ("y", .vint 2)]])
      (by decide) (by decide)⟩

end ctjson
